import Mathlib

/-
Verification of the revenue aggregation engine of app/services/revenue.py
(RevenueService).  The engine is embedded shallowly:

* Python dates are modelled by the structure Date (year, month, day)
  together with their proleptic Gregorian ordinal (Date.toordinal), exactly
  as CPython defines it: ordinal 1 is 0001-01-01, which is a Monday.
* Monetary amounts (Sale.total_amount, Float in the SQLAlchemy model) are
  modelled as rationals, so that sums and quotients are exact.
* The insertion-ordered Python dicts used by the grouping helpers are
  modelled as association lists built in generation order; the fold over
  sales updates an existing entry in place and ignores a sale whose key is
  absent, exactly like the guarded dict updates in the source.
* The while loops generating the bucket skeletons are modelled by
  structurally recursive functions with an explicit fuel argument that is
  large enough for the loop condition - and, for the daily and weekly
  loops, the date.max overflow path - to be the only things that stop the
  recursion.
* The fallible date operations return Option, with none standing for the
  exception CPython raises: date.replace and date - timedelta in the default
  start-date resolution (ValueError / OverflowError at date.min), and the
  date + timedelta increments of the daily and weekly bucket loops, which
  raise OverflowError when they step past date.max = 9999-12-31, ordinal
  3652059.  The daily and weekly grouping helpers therefore return
  Option as well, and monthly / annual grouping, which never constructs a
  date beyond the end year, stays total.
-/

namespace RevenueService

/-- calendar.isleap from the Python standard library. -/
def isleap (y : ℕ) : Bool := y % 4 == 0 && (y % 100 != 0 || y % 400 == 0)

/-- calendar.monthrange(y, m)[1]: the number of days of month m of year y. -/
def monthrange (y m : ℕ) : ℕ :=
  if m = 2 then (if isleap y then 29 else 28)
  else if m = 4 ∨ m = 6 ∨ m = 9 ∨ m = 11 then 30
  else 31

/-- Number of days of year y (366 for leap years). -/
def daysInYear (y : ℕ) : ℕ := if isleap y then 366 else 365

/-- Days of year y that lie strictly before month m (0 for m = 1). -/
def daysBeforeMonth (y : ℕ) : ℕ → ℕ
  | 0 => 0
  | m + 1 => if m = 0 then 0 else daysBeforeMonth y m + monthrange y m

/-- Days that lie strictly before year y in the proleptic Gregorian
calendar (0 for year 1, the first representable year). -/
def daysBeforeYear : ℕ → ℕ
  | 0 => 0
  | y + 1 => if y = 0 then 0 else daysBeforeYear y + daysInYear y

/-- A Python datetime.date, as the triple of its fields. -/
structure Date where
  year : ℕ
  month : ℕ
  day : ℕ
deriving DecidableEq, Repr

/-- The dates representable by datetime.date: MINYEAR = 1 through
MAXYEAR = 9999, with the month and day in calendar range. -/
def Date.IsValid (a : Date) : Prop :=
  1 ≤ a.year ∧ a.year ≤ 9999 ∧ 1 ≤ a.month ∧ a.month ≤ 12
    ∧ 1 ≤ a.day ∧ a.day ≤ monthrange a.year a.month

instance (a : Date) : Decidable a.IsValid := by unfold Date.IsValid; infer_instance

/-- date.toordinal(): CPython computes exactly
days_before_year(y) + days_before_month(y, m) + d. -/
def Date.toordinal (a : Date) : ℕ :=
  daysBeforeYear a.year + daysBeforeMonth a.year a.month + a.day

/-- date.max.toordinal(): the ordinal of 9999-12-31, the largest date
CPython can represent; date + timedelta raises OverflowError past it. -/
def maxOrdinal : ℕ := 3652059

/-- date.weekday() in terms of the ordinal, as CPython implements it:
(toordinal + 6) mod 7, Monday = 0. -/
def weekday (o : ℕ) : ℕ := (o + 6) % 7

/-- The Monday on or before the date with ordinal o:
start_date - timedelta(days=start_date.weekday()) from the source,
on ordinals. -/
def mondayOnOrBefore (o : ℕ) : ℕ := o - weekday o

/-- The day before a date, with the borrow logic of the Gregorian calendar;
none when the input is 0001-01-01, where CPython overflows.  This is the
single step of date - timedelta(days=k). -/
def prevDay (a : Date) : Option Date :=
  if 1 < a.day then some ⟨a.year, a.month, a.day - 1⟩
  else if 1 < a.month then some ⟨a.year, a.month - 1, monthrange a.year (a.month - 1)⟩
  else if 1 < a.year then some ⟨a.year - 1, 12, 31⟩
  else none

/-- date - timedelta(days=k); none models the OverflowError raised when the
result would precede date.min. -/
def subDays : Date → ℕ → Option Date
  | a, 0 => some a
  | a, k + 1 => (prevDay a).bind (fun b => subDays b k)

/-- app/schemas/revenue.py RevenuePeriodEnum: the four granularities. -/
inductive RevenuePeriodEnum
  | daily
  | weekly
  | monthly
  | annual
deriving DecidableEq, Repr

/-- A sale line item; only the quantity is read by the engine. -/
structure SaleItem where
  quantity : ℕ
deriving DecidableEq, Repr

/-- A Sale row as the engine reads it.  sale_date is the date part of the
stored datetime (the source always goes through sale.sale_date.date(); the
time of day only matters to the upstream SQL filter, which is external). -/
structure Sale where
  sale_date : Date
  total_amount : ℚ
  items : List SaleItem
deriving DecidableEq, Repr

/-- sum(item.quantity for item in sale.items). -/
def Sale.units (s : Sale) : ℕ := (s.items.map SaleItem.quantity).sum

/-- The mutable per-bucket dict value of the grouping helpers:
total_revenue, total_sales and order_count, all starting at 0. -/
structure BucketAcc where
  total_revenue : ℚ
  total_sales : ℕ
  order_count : ℕ
deriving DecidableEq, Repr

def BucketAcc.init : BucketAcc := ⟨0, 0, 0⟩

/-- One guarded dict update: the three += statements run for the bucket the
sale is assigned to. -/
def BucketAcc.add (a : BucketAcc) (s : Sale) : BucketAcc :=
  ⟨a.total_revenue + s.total_amount, a.total_sales + s.units, a.order_count + 1⟩

/-- Folding one sale into the bucket association list: the entry whose key
equals the key recomputed from the sale is updated in place; when no entry
matches (the `if key in data` guard fails) nothing changes. -/
def foldStep {κ : Type} [DecidableEq κ] (key : Sale → κ)
    (bs : List (κ × BucketAcc)) (s : Sale) : List (κ × BucketAcc) :=
  bs.map (fun ka => if ka.1 = key s then (ka.1, ka.2.add s) else ka)

/-- The `for sale in sales` fold of every grouping helper. -/
def foldSales {κ : Type} [DecidableEq κ] (key : Sale → κ)
    (bs : List (κ × BucketAcc)) (sales : List Sale) : List (κ × BucketAcc) :=
  sales.foldl (foldStep key) bs

/-- app/schemas/revenue.py RevenueResponse, with the two dates as ordinals;
period_label and category_name are presentation-only strings and carry no
claim, so they are omitted. -/
structure RevenueResponse where
  period_start : ℕ
  period_end : ℕ
  total_revenue : ℚ
  total_sales : ℕ
  average_order_value : ℚ
deriving DecidableEq, Repr

/-- Final per-bucket record construction, including the guarded
average_order_value = total_revenue / order_count if order_count > 0 else 0. -/
def mkResponse (startO endO : ℕ) (a : BucketAcc) : RevenueResponse :=
  ⟨startO, endO, a.total_revenue, a.total_sales,
    if 0 < a.order_count then a.total_revenue / (a.order_count : ℚ) else 0⟩

/-- The key sequence the daily and weekly bucket loops generate when no
date.max overflow occurs: `while current <= end_date`, record cur, step by
step days (1 for daily, 7 for weekly).  The guard is the loop condition of
the source, the fuel only bounds the recursion and is always supplied large
enough.  The Option-level loop bodies dayGo and weekGo below refine this
with the OverflowError paths; their successful runs produce exactly these
keys. -/
def stepGo (step fuel cur e : ℕ) : List ℕ :=
  match fuel with
  | 0 => []
  | fuel + 1 => if cur ≤ e then cur :: stepGo step fuel (cur + step) e else []

/-- The daily bucket keys: one ordinal per day from cur to e inclusive. -/
def dayKeysFrom (cur e : ℕ) : List ℕ := stepGo 1 (e + 1 - cur) cur e

/-- The weekly bucket keys starting from cur (a Monday in actual use). -/
def weekKeysFrom (cur e : ℕ) : List ℕ := stepGo 7 (e + 1 - cur) cur e

/-- Fuel-driven body of the monthly bucket loop: runs while
(current_year, current_month) is at most (end_year, end_month) in the order
the source checks, stepping December to January of the next year. -/
def monthGo (fuel : ℕ) (cy cm ey em : ℕ) : List (ℕ × ℕ) :=
  match fuel with
  | 0 => []
  | fuel + 1 =>
    if cy < ey ∨ (cy = ey ∧ cm ≤ em) then
      (cy, cm) :: (if cm = 12 then monthGo fuel (cy + 1) 1 ey em
                   else monthGo fuel cy (cm + 1) ey em)
    else []

/-- The monthly bucket keys, one (year, month) pair per generated month. -/
def monthKeysFrom (cy cm ey em : ℕ) : List (ℕ × ℕ) :=
  monthGo (12 * ey + em + 1 - (12 * cy + cm)) cy cm ey em

/-- The annual bucket keys: range(start_date.year, end_date.year + 1), the
consecutive integers from sy to ey inclusive. -/
def yearKeys (sy ey : ℕ) : List ℕ := stepGo 1 (ey + 1 - sy) sy ey

/-- Fuel-driven body of the daily bucket loop with its overflow path: each
iteration records the bucket for cur and then runs
current_date += timedelta(days=1), which raises OverflowError - discarding
everything - when cur is already date.max. -/
def dayGo (fuel cur e : ℕ) : Option (List ℕ) :=
  match fuel with
  | 0 => some []
  | fuel + 1 =>
    if cur ≤ e then
      if cur + 1 ≤ maxOrdinal then (dayGo fuel (cur + 1) e).map (fun l => cur :: l)
      else none
    else some []

/-- The daily bucket keys, or none for the OverflowError the loop raises
when it has to step past 9999-12-31. -/
def dayKeys (cur e : ℕ) : Option (List ℕ) := dayGo (e + 1 - cur) cur e

/-- Fuel-driven body of the weekly bucket loop with its overflow paths: each
iteration first computes current_week_start + timedelta(days=6) (raising
OverflowError when that passes date.max), then records the bucket, then
runs current_week_start += timedelta(days=7) (raising likewise). -/
def weekGo (fuel cur e : ℕ) : Option (List ℕ) :=
  match fuel with
  | 0 => some []
  | fuel + 1 =>
    if cur ≤ e then
      if cur + 6 ≤ maxOrdinal then
        if cur + 7 ≤ maxOrdinal then (weekGo fuel (cur + 7) e).map (fun l => cur :: l)
        else none
      else none
    else some []

/-- The weekly bucket keys from cur (a Monday in actual use), or none for
the OverflowError raised once the loop reaches Monday 9999-12-27. -/
def weekKeys (cur e : ℕ) : Option (List ℕ) := weekGo (e + 1 - cur) cur e

/-- Assignment key of a sale for daily grouping: sale.sale_date.date(). -/
def dayKey (x : Sale) : ℕ := x.sale_date.toordinal

/-- Assignment key for weekly grouping: the Monday of the week of the sale,
sale_date - timedelta(days=sale_date.weekday()). -/
def weekKey (x : Sale) : ℕ := mondayOnOrBefore x.sale_date.toordinal

/-- Assignment key for monthly grouping: date(sale_date.year,
sale_date.month, 1), identified with the (year, month) pair. -/
def monthKey (x : Sale) : ℕ × ℕ := (x.sale_date.year, x.sale_date.month)

/-- Assignment key for annual grouping: sale.sale_date.year. -/
def yearKey (x : Sale) : ℕ := x.sale_date.year

/-- The fold-and-format tail of _group_revenue_by_day over an
already-generated key list. -/
def dayRecords (sales : List Sale) (ks : List ℕ) : List RevenueResponse :=
  (foldSales dayKey (ks.map (fun k => (k, BucketAcc.init))) sales).map
    (fun ka => mkResponse ka.1 ka.1 ka.2)

/-- RevenueService._group_revenue_by_day: none models the OverflowError of
the bucket loop at end_date = 9999-12-31 (the loop raises before the sale
fold runs, so a raise discards everything). -/
def group_revenue_by_day (sales : List Sale) (startO endO : ℕ) :
    Option (List RevenueResponse) :=
  (dayKeys startO endO).map (dayRecords sales)

/-- The fold-and-format tail of _group_revenue_by_week. -/
def weekRecords (sales : List Sale) (ks : List ℕ) : List RevenueResponse :=
  (foldSales weekKey (ks.map (fun k => (k, BucketAcc.init))) sales).map
    (fun ka => mkResponse ka.1 (ka.1 + 6) ka.2)

/-- RevenueService._group_revenue_by_week: buckets start at the Monday on
or before start_date (that subtraction never underflows, since the Monday
of a valid date's week is itself a valid date) and each spans
start..start + 6; none models the OverflowError of the bucket loop once
end_date is on or after Monday 9999-12-27. -/
def group_revenue_by_week (sales : List Sale) (startO endO : ℕ) :
    Option (List RevenueResponse) :=
  (weekKeys (mondayOnOrBefore startO) endO).map (weekRecords sales)

/-- Bounds of the month bucket keyed by (y, m): first and last day of the
month, as stored in the dict at generation time. -/
def monthStartOrd (p : ℕ × ℕ) : ℕ := Date.toordinal ⟨p.1, p.2, 1⟩

def monthEndOrd (p : ℕ × ℕ) : ℕ := Date.toordinal ⟨p.1, p.2, monthrange p.1 p.2⟩

/-- RevenueService._group_revenue_by_month (pure part). -/
def group_revenue_by_month (sales : List Sale) (s e : Date) : List RevenueResponse :=
  (foldSales monthKey
      ((monthKeysFrom s.year s.month e.year e.month).map (fun k => (k, BucketAcc.init))) sales).map
    (fun ka => mkResponse (monthStartOrd ka.1) (monthEndOrd ka.1) ka.2)

/-- Bounds of the year bucket keyed by y: January 1 and December 31. -/
def yearStartOrd (y : ℕ) : ℕ := Date.toordinal ⟨y, 1, 1⟩

def yearEndOrd (y : ℕ) : ℕ := Date.toordinal ⟨y, 12, 31⟩

/-- RevenueService._group_revenue_by_year (pure part). -/
def group_revenue_by_year (sales : List Sale) (sy ey : ℕ) : List RevenueResponse :=
  (foldSales yearKey ((yearKeys sy ey).map (fun k => (k, BucketAcc.init))) sales).map
    (fun ka => mkResponse (yearStartOrd ka.1) (yearEndOrd ka.1) ka.2)

/-- Dispatch of get_revenue_by_period to the four grouping helpers, on an
already-resolved date range and the sale rows the database returned; none
is the OverflowError of the daily / weekly bucket loops, while the monthly
and annual loops never construct a date past their end year and so never
raise. -/
def groupRevenue : RevenuePeriodEnum → List Sale → Date → Date → Option (List RevenueResponse)
  | .daily, sales, s, e => group_revenue_by_day sales s.toordinal e.toordinal
  | .weekly, sales, s, e => group_revenue_by_week sales s.toordinal e.toordinal
  | .monthly, sales, s, e => some (group_revenue_by_month sales s e)
  | .annual, sales, s, e => some (group_revenue_by_year sales s.year e.year)

/-- Lines 29-37 of the source: the default start_date for each granularity
when the caller supplies none.  daily and weekly subtract a timedelta;
monthly runs end_date.replace(month=1 if end_date.month < 13 else 13 - 12)
and annual runs end_date.replace(year=end_date.year - 5).  The replace
calls validate the resulting date the way CPython does and none models the
ValueError of an out-of-range result. -/
def resolve_start_date : RevenuePeriodEnum → Date → Option Date
  | .daily, e => subDays e 30
  | .weekly, e => subDays e 84
  | .monthly, e =>
    let m := if e.month < 13 then 1 else 13 - 12
    if 1 ≤ m ∧ m ≤ 12 ∧ 1 ≤ e.day ∧ e.day ≤ monthrange e.year m
    then some ⟨e.year, m, e.day⟩ else none
  | .annual, e =>
    if 5 < e.year ∧ 1 ≤ e.day ∧ e.day ≤ monthrange (e.year - 5) e.month
    then some ⟨e.year - 5, e.month, e.day⟩ else none

/-- RevenueService.get_revenue_by_period: e is the effective end date (the
explicit one, or date.today() when absent — the claims quantify over it
either way); a missing start date is resolved per granularity; sales is
whatever the filtered query returned.  none models an uncaught exception,
whether raised during date resolution or by the bucket loop itself. -/
def get_revenue_by_period (period : RevenuePeriodEnum) (start? : Option Date)
    (e : Date) (sales : List Sale) : Option (List RevenueResponse) :=
  match start? with
  | some s => groupRevenue period sales s e
  | none => (resolve_start_date period e).bind (fun s => groupRevenue period sales s e)

/-- Range-wide revenue total: sum(item.total_revenue for item in data). -/
def sumRev (l : List RevenueResponse) : ℚ := (l.map RevenueResponse.total_revenue).sum

/-- Range-wide unit total: sum(item.total_sales for item in data). -/
def sumSales (l : List RevenueResponse) : ℕ := (l.map RevenueResponse.total_sales).sum

/-- app/schemas/revenue.py RevenuePeriodData, without the label string. -/
structure RevenuePeriodData where
  data : List RevenueResponse
  total_revenue : ℚ
  total_sales : ℕ
  average_order_value : ℚ
deriving DecidableEq, Repr

/-- Lines 83-89 of the source: per-period totals, and an average computed
with total_sales (the summed unit counts) as the divisor. -/
def mkPeriodData (l : List RevenueResponse) : RevenuePeriodData :=
  ⟨l, sumRev l, sumSales l,
    if 0 < sumSales l then sumRev l / (sumSales l : ℚ) else 0⟩

/-- app/schemas/revenue.py RevenueCompareResponse. -/
structure RevenueCompareResponse where
  period1 : RevenuePeriodData
  period2 : RevenuePeriodData
  revenue_change : ℚ
  revenue_change_percentage : ℚ
  sales_change : ℤ
  sales_change_percentage : ℚ
deriving DecidableEq, Repr

/-- Lines 83-118 of compare_revenue: the comparison record computed from
the two period datasets, with the zero guards of lines 91-94. -/
def compare_core (d1 d2 : List RevenueResponse) : RevenueCompareResponse :=
  let t1 := sumRev d1
  let n1 := sumSales d1
  let t2 := sumRev d2
  let n2 := sumSales d2
  ⟨mkPeriodData d1, mkPeriodData d2,
    t2 - t1,
    if 0 < t1 then (t2 - t1) / t1 * 100 else 0,
    (n2 : ℤ) - (n1 : ℤ),
    if 0 < n1 then (((n2 : ℤ) - (n1 : ℤ) : ℤ) : ℚ) / (n1 : ℚ) * 100 else 0⟩

/-- RevenueService.compare_revenue: runs the grouping pipeline once per
period on explicit bounds (sales1 and sales2 are the rows the two filtered
queries returned) and derives the comparison fields; an OverflowError in
either grouping run propagates out of compare_revenue as well. -/
def compare_revenue (period : RevenuePeriodEnum) (p1s p1e p2s p2e : Date)
    (sales1 sales2 : List Sale) : Option RevenueCompareResponse :=
  (groupRevenue period sales1 p1s p1e).bind (fun d1 =>
    (groupRevenue period sales2 p2s p2e).map (fun d2 => compare_core d1 d2))

/-- The accumulator the bucket keyed k holds after all sales are folded in:
the same guarded fold, restricted to one entry. -/
def accFor {κ : Type} [DecidableEq κ] (key : Sale → κ) (k : κ) (sales : List Sale) : BucketAcc :=
  sales.foldl (fun a x => if k = key x then a.add x else a) BucketAcc.init

/-- The successor of a month key as the loop steps it. -/
def nextMonthKey (p : ℕ × ℕ) : ℕ × ℕ := if p.2 = 12 then (p.1 + 1, 1) else (p.1, p.2 + 1)

/-- The (period_start, period_end) pairs of a record list, in order. -/
def bounds (l : List RevenueResponse) : List (ℕ × ℕ) :=
  l.map (fun r => (r.period_start, r.period_end))

/-- A bucket sequence covering the ordinal range lo..hi: non-empty, first
bucket starting on or before lo, last bucket ending on or after hi, every
bucket non-degenerate, and consecutive buckets contiguous (the next period
starts the day after the previous one ends - hence no gaps, no overlaps). -/
def IsCover (lo hi : ℕ) (bs : List (ℕ × ℕ)) : Prop :=
  bs ≠ [] ∧ (∀ b ∈ bs, b.1 ≤ b.2)
    ∧ (∀ b ∈ bs.head?, b.1 ≤ lo) ∧ (∀ b ∈ bs.getLast?, hi ≤ b.2)
    ∧ List.Chain' (fun a b => b.1 = a.2 + 1) bs

/-- Whether the recomputed assignment key of a sale exists in the generated
bucket-key set of granularity g for the range s..e (for daily and weekly,
the keys a successful non-overflowing run generates). -/
def keyInBuckets (g : RevenuePeriodEnum) (s e : Date) : Sale → Bool :=
  match g with
  | .daily => fun x => decide (dayKey x ∈ dayKeysFrom s.toordinal e.toordinal)
  | .weekly => fun x =>
      decide (weekKey x ∈ weekKeysFrom (mondayOnOrBefore s.toordinal) e.toordinal)
  | .monthly => fun x => decide (monthKey x ∈ monthKeysFrom s.year s.month e.year e.month)
  | .annual => fun x => decide (yearKey x ∈ yearKeys s.year e.year)

/-- The aggregate contract of a single output record against the list of
sales assigned to its bucket: total_revenue and total_sales sum the
assigned amounts and units, average_order_value divides the revenue by the
number of assigned sales under the positivity guard, and a record with no
assigned sale is all zero. -/
def BucketSpec (r : RevenueResponse) (assigned : List Sale) : Prop :=
  r.total_revenue = (assigned.map Sale.total_amount).sum
  ∧ r.total_sales = (assigned.map Sale.units).sum
  ∧ r.average_order_value
      = (if 0 < assigned.length then r.total_revenue / (assigned.length : ℚ) else 0)
  ∧ (assigned.length = 0 →
      r.total_revenue = 0 ∧ r.total_sales = 0 ∧ r.average_order_value = 0)

/-- Whether a sale is assigned to the bucket of record r under granularity
g: its recomputed key identifies exactly the bucket whose period_start r
carries (bucket keys are the period_start for daily and weekly, and map to
it through the month / year start ordinal otherwise). -/
def assignedToRecord (g : RevenuePeriodEnum) (r : RevenueResponse) : Sale → Bool :=
  match g with
  | .daily => fun x => decide (dayKey x = r.period_start)
  | .weekly => fun x => decide (weekKey x = r.period_start)
  | .monthly => fun x => decide (monthStartOrd (monthKey x) = r.period_start)
  | .annual => fun x => decide (yearStartOrd (yearKey x) = r.period_start)

/-- The shape the weekly bucket sequence is claimed to have: non-empty,
first record starting at start_date minus its weekday offset (a Monday on
or before start_date), every record spanning exactly start..start + 6 with
its start at most end_date, the last record the final one whose start fits,
and consecutive records 7 days apart. -/
def WeeklyShape (sO eO : ℕ) (l : List RevenueResponse) : Prop :=
  l ≠ []
  ∧ (∀ r ∈ l.head?, r.period_start = sO - weekday sO)
  ∧ weekday (sO - weekday sO) = 0
  ∧ sO - weekday sO ≤ sO
  ∧ (∀ r ∈ l, r.period_end = r.period_start + 6 ∧ r.period_start ≤ eO)
  ∧ (∀ r ∈ l.getLast?, eO < r.period_start + 7)
  ∧ List.Chain' (fun r1 r2 => r2.period_start = r1.period_start + 7) l

end RevenueService

namespace RevenueService

/-! Generic facts about the dict fold shared by the four grouping helpers. -/

theorem foldStep_map {κ : Type} [DecidableEq κ] (key : Sale → κ) (ks : List κ)
    (A : κ → BucketAcc) (x : Sale) :
    foldStep key (ks.map fun k => (k, A k)) x
      = ks.map fun k => (k, if k = key x then (A k).add x else A k) := by
  unfold foldStep
  rw [List.map_map]
  refine List.map_congr_left ?_
  intro k _
  by_cases h : k = key x <;> simp [h]

theorem foldSales_map {κ : Type} [DecidableEq κ] (key : Sale → κ) (ks : List κ)
    (sales : List Sale) (A : κ → BucketAcc) :
    foldSales key (ks.map fun k => (k, A k)) sales
      = ks.map fun k =>
          (k, sales.foldl (fun a x => if k = key x then a.add x else a) (A k)) := by
  induction sales generalizing A with
  | nil => simp [foldSales]
  | cons x xs ih =>
    show foldSales key (foldStep key (ks.map fun k => (k, A k)) x) xs = _
    rw [foldStep_map key ks A x, ih (fun k => if k = key x then (A k).add x else A k)]
    simp only [List.foldl_cons]

theorem foldSales_init {κ : Type} [DecidableEq κ] (key : Sale → κ) (ks : List κ)
    (sales : List Sale) :
    foldSales key (ks.map fun k => (k, BucketAcc.init)) sales
      = ks.map fun k => (k, accFor key k sales) :=
  foldSales_map key ks sales (fun _ => BucketAcc.init)

/-- Closed form of the accumulator: sums and count over the sales whose
recomputed key is k. -/
theorem accFor_eq_filter {κ : Type} [DecidableEq κ] (key : Sale → κ) (k : κ)
    (sales : List Sale) :
    accFor key k sales
      = ⟨((sales.filter fun x => decide (k = key x)).map Sale.total_amount).sum,
         ((sales.filter fun x => decide (k = key x)).map Sale.units).sum,
         (sales.filter fun x => decide (k = key x)).length⟩ := by
  have gen : ∀ (l : List Sale) (a : BucketAcc),
      l.foldl (fun a x => if k = key x then a.add x else a) a
        = ⟨a.total_revenue + ((l.filter fun x => decide (k = key x)).map Sale.total_amount).sum,
           a.total_sales + ((l.filter fun x => decide (k = key x)).map Sale.units).sum,
           a.order_count + (l.filter fun x => decide (k = key x)).length⟩ := by
    intro l
    induction l with
    | nil => intro a; simp
    | cons x xs ih =>
      intro a
      by_cases h : k = key x
      · rw [List.foldl_cons, if_pos h, ih (a.add x)]
        simp [List.filter_cons, h, BucketAcc.add, add_assoc, add_comm, add_left_comm]
      · rw [List.foldl_cons, if_neg h, ih a]
        simp [List.filter_cons, h]
  rw [accFor, gen sales BucketAcc.init]
  simp [BucketAcc.init]

/-- Each grouping helper is the bucket-key list mapped through accFor and
the response formatter. -/
theorem dayRecords_eq (sales : List Sale) (ks : List ℕ) :
    dayRecords sales ks = ks.map (fun k => mkResponse k k (accFor dayKey k sales)) := by
  unfold dayRecords
  rw [foldSales_init, List.map_map]
  rfl

theorem weekRecords_eq (sales : List Sale) (ks : List ℕ) :
    weekRecords sales ks = ks.map (fun k => mkResponse k (k + 6) (accFor weekKey k sales)) := by
  unfold weekRecords
  rw [foldSales_init, List.map_map]
  rfl

theorem group_revenue_by_month_eq (sales : List Sale) (s e : Date) :
    group_revenue_by_month sales s e
      = (monthKeysFrom s.year s.month e.year e.month).map
          (fun k => mkResponse (monthStartOrd k) (monthEndOrd k) (accFor monthKey k sales)) := by
  unfold group_revenue_by_month
  rw [foldSales_init, List.map_map]
  rfl

theorem group_revenue_by_year_eq (sales : List Sale) (sy ey : ℕ) :
    group_revenue_by_year sales sy ey
      = (yearKeys sy ey).map
          (fun k => mkResponse (yearStartOrd k) (yearEndOrd k) (accFor yearKey k sales)) := by
  unfold group_revenue_by_year
  rw [foldSales_init, List.map_map]
  rfl

/-! Summation helpers for the conservation claims. -/

theorem sum_map_add {κ : Type} {M : Type} [AddCommMonoid M] (l : List κ) (f g : κ → M) :
    (l.map fun k => f k + g k).sum = (l.map f).sum + (l.map g).sum := by
  induction l with
  | nil => simp
  | cons a l ih => simp only [List.map_cons, List.sum_cons, ih]; abel

theorem sum_map_ite_of_not_mem {κ M : Type} [DecidableEq κ] [AddCommMonoid M]
    (l : List κ) (c : κ) (v : M) (hc : c ∉ l) :
    (l.map fun k => if c = k then v else 0).sum = 0 := by
  induction l with
  | nil => simp
  | cons a l ih =>
    simp only [List.mem_cons, not_or] at hc
    simp only [List.map_cons, List.sum_cons, if_neg hc.1, ih hc.2, add_zero]

theorem sum_map_ite_mem {κ M : Type} [DecidableEq κ] [AddCommMonoid M]
    (l : List κ) (h : l.Nodup) (c : κ) (v : M) :
    (l.map fun k => if c = k then v else 0).sum = if c ∈ l then v else 0 := by
  induction l with
  | nil => simp
  | cons a l ih =>
    rcases List.nodup_cons.mp h with ⟨ha, hl⟩
    by_cases hca : c = a
    · subst hca
      simp only [List.map_cons, List.sum_cons, if_pos rfl,
        sum_map_ite_of_not_mem l c v ha, add_zero, List.mem_cons, true_or, if_true]
    · simp only [List.map_cons, List.sum_cons, if_neg hca, ih hl, zero_add, List.mem_cons]
      simp [hca]

/-- Conservation over any projection of the sales: summing a per-bucket
filtered total over a duplicate-free key list equals one filtered total
over the whole key set. -/
theorem sum_filtered_over_keys {κ M : Type} [DecidableEq κ] [AddCommMonoid M]
    (key : Sale → κ) (f : Sale → M) (ks : List κ) (hks : ks.Nodup)
    (pred : Sale → Bool) (hpred : ∀ x, pred x = true ↔ key x ∈ ks) (sales : List Sale) :
    (ks.map fun k => ((sales.filter fun x => decide (k = key x)).map f).sum).sum
      = ((sales.filter pred).map f).sum := by
  induction sales with
  | nil => simp
  | cons x xs ih =>
    have lhs :
        (ks.map fun k => (((x :: xs).filter fun y => decide (k = key y)).map f).sum).sum
          = (ks.map fun k => ((if k = key x then f x else 0)
              + ((xs.filter fun y => decide (k = key y)).map f).sum)).sum := by
      refine congrArg List.sum (List.map_congr_left ?_)
      intro k _
      by_cases h : k = key x
      · simp [List.filter_cons, h]
      · simp [List.filter_cons, h]
    rw [lhs, sum_map_add]
    have ite_flip :
        (ks.map fun k => if k = key x then f x else 0)
          = ks.map fun k => if key x = k then f x else 0 := by
      refine List.map_congr_left ?_
      intro k _
      by_cases h : k = key x
      · simp [h]
      · rw [if_neg h, if_neg (mt Eq.symm h)]
    rw [ite_flip, sum_map_ite_mem ks hks (key x) (f x), ih]
    by_cases hm : key x ∈ ks
    · have hpx : pred x = true := (hpred x).mpr hm
      simp [List.filter_cons, hpx, hm]
    · have hpx : pred x = false := by
        rcases Bool.eq_false_or_eq_true (pred x) with h | h
        · exact absurd ((hpred x).mp h) hm
        · exact h
      simp [List.filter_cons, hpx, hm]

end RevenueService

namespace RevenueService

/-! Shape of the stepped (daily, weekly, annual) bucket-key lists. -/

theorem stepGo_succ (step fuel cur e : ℕ) :
    stepGo step (fuel + 1) cur e
      = if cur ≤ e then cur :: stepGo step fuel (cur + step) e else [] := rfl

theorem stepGo_eq_nil (step fuel cur e : ℕ) (h : ¬ cur ≤ e) : stepGo step fuel cur e = [] := by
  cases fuel with
  | zero => rfl
  | succ fuel => rw [stepGo_succ, if_neg h]

theorem stepGo_eq_nil_iff (step fuel cur e : ℕ) (hf : 1 ≤ fuel) :
    stepGo step fuel cur e = [] ↔ e < cur := by
  constructor
  · intro hnil
    by_contra hlt
    cases fuel with
    | zero => omega
    | succ fuel =>
      rw [stepGo_succ, if_pos (by omega)] at hnil
      exact List.cons_ne_nil _ _ hnil
  · intro hlt
    exact stepGo_eq_nil step fuel cur e (by omega)

theorem mem_stepGo (step e : ℕ) :
    ∀ fuel cur x : ℕ, x ∈ stepGo step fuel cur e → cur ≤ x ∧ x ≤ e := by
  intro fuel
  induction fuel with
  | zero => intro cur x hx; simp [stepGo] at hx
  | succ fuel ih =>
    intro cur x hx
    by_cases h : cur ≤ e
    · rw [stepGo_succ, if_pos h] at hx
      rcases List.mem_cons.mp hx with rfl | hx2
      · omega
      · have := ih (cur + step) x hx2
        omega
    · rw [stepGo_eq_nil step _ cur e h] at hx
      exact absurd hx (List.not_mem_nil x)

theorem stepGo_head (step fuel cur e : ℕ) (h : cur ≤ e) (hf : 1 ≤ fuel) :
    (stepGo step fuel cur e).head? = some cur := by
  cases fuel with
  | zero => omega
  | succ fuel => rw [stepGo_succ, if_pos h]; rfl

theorem stepGo_getLast (step : ℕ) (hs : 1 ≤ step) (e : ℕ) :
    ∀ fuel cur : ℕ, cur ≤ e → e + 1 - cur ≤ fuel →
      ∃ l, (stepGo step fuel cur e).getLast? = some l ∧ l ≤ e ∧ e < l + step := by
  intro fuel
  induction fuel with
  | zero => intro cur h hf; omega
  | succ fuel ih =>
    intro cur h hf
    rw [stepGo_succ, if_pos h]
    by_cases h2 : cur + step ≤ e
    · obtain ⟨l, hl, hle, hlt⟩ := ih (cur + step) h2 (by omega)
      have hne : stepGo step fuel (cur + step) e ≠ [] := by
        intro hnil
        have := (stepGo_eq_nil_iff step fuel (cur + step) e (by omega)).mp hnil
        omega
      obtain ⟨a, t, hat⟩ := List.exists_cons_of_ne_nil hne
      refine ⟨l, ?_, hle, hlt⟩
      rw [hat, List.getLast?_cons_cons, ← hat, hl]
    · rw [stepGo_eq_nil step fuel (cur + step) e (by omega)]
      exact ⟨cur, rfl, h, by omega⟩

theorem stepGo_chain (step e : ℕ) :
    ∀ fuel cur : ℕ, List.Chain' (fun a b => b = a + step) (stepGo step fuel cur e) := by
  intro fuel
  induction fuel with
  | zero => intro cur; exact List.chain'_nil
  | succ fuel ih =>
    intro cur
    by_cases h : cur ≤ e
    · rw [stepGo_succ, if_pos h]
      refine List.chain'_cons'.mpr ⟨?_, ih (cur + step)⟩
      intro y hy
      cases hfe : stepGo step fuel (cur + step) e with
      | nil => rw [hfe] at hy; simp at hy
      | cons a t =>
        have hfuel : 1 ≤ fuel := by
          cases fuel with
          | zero => exact absurd hfe.symm (List.cons_ne_nil a t)
          | succ fuel2 => omega
        have hne : ¬ e < cur + step := by
          intro hlt
          rw [stepGo_eq_nil step fuel (cur + step) e (by omega)] at hfe
          exact List.cons_ne_nil a t hfe.symm
        have hh := stepGo_head step fuel (cur + step) e (by omega) hfuel
        rw [hfe] at hh hy
        simp only [List.head?_cons, Option.some.injEq] at hh
        simp only [List.head?_cons, Option.mem_def, Option.some.injEq] at hy
        omega
    · rw [stepGo_succ, if_neg h]
      exact List.chain'_nil

theorem stepGo_nodup (step : ℕ) (hs : 1 ≤ step) (e : ℕ) :
    ∀ fuel cur : ℕ, (stepGo step fuel cur e).Nodup := by
  intro fuel
  induction fuel with
  | zero => intro cur; exact List.nodup_nil
  | succ fuel ih =>
    intro cur
    by_cases h : cur ≤ e
    · rw [stepGo_succ, if_pos h]
      refine List.nodup_cons.mpr ⟨?_, ih (cur + step)⟩
      intro hmem
      have := mem_stepGo step e fuel (cur + step) cur hmem
      omega
    · rw [stepGo_succ, if_neg h]
      exact List.nodup_nil

end RevenueService

namespace RevenueService

/-! Overflow behaviour of the daily and weekly loop bodies: a successful
run produces exactly the overflow-free key sequence, and the run fails
exactly when the loop has to step past date.max. -/

theorem dayGo_some_inv (e : ℕ) :
    ∀ fuel cur ks, dayGo fuel cur e = some ks → ks = stepGo 1 fuel cur e := by
  intro fuel
  induction fuel with
  | zero =>
    intro cur ks h
    simp only [dayGo, Option.some.injEq] at h
    simp [stepGo, h.symm]
  | succ fuel ih =>
    intro cur ks h
    simp only [dayGo] at h
    by_cases hc : cur ≤ e
    · rw [if_pos hc] at h
      by_cases hov : cur + 1 ≤ maxOrdinal
      · rw [if_pos hov] at h
        obtain ⟨l, hl, hks⟩ := Option.map_eq_some.mp h
        rw [stepGo_succ, if_pos hc, ← hks, ih (cur + 1) l hl]
      · rw [if_neg hov] at h
        exact absurd h (Option.noConfusion)
    · rw [if_neg hc, Option.some.injEq] at h
      rw [stepGo_succ, if_neg hc, ← h]

theorem weekGo_some_inv (e : ℕ) :
    ∀ fuel cur ks, weekGo fuel cur e = some ks → ks = stepGo 7 fuel cur e := by
  intro fuel
  induction fuel with
  | zero =>
    intro cur ks h
    simp only [weekGo, Option.some.injEq] at h
    simp [stepGo, h.symm]
  | succ fuel ih =>
    intro cur ks h
    simp only [weekGo] at h
    by_cases hc : cur ≤ e
    · rw [if_pos hc] at h
      by_cases h6 : cur + 6 ≤ maxOrdinal
      · rw [if_pos h6] at h
        by_cases h7 : cur + 7 ≤ maxOrdinal
        · rw [if_pos h7] at h
          obtain ⟨l, hl, hks⟩ := Option.map_eq_some.mp h
          rw [stepGo_succ, if_pos hc, ← hks, ih (cur + 7) l hl]
        · rw [if_neg h7] at h
          exact absurd h (Option.noConfusion)
      · rw [if_neg h6] at h
        exact absurd h (Option.noConfusion)
    · rw [if_neg hc, Option.some.injEq] at h
      rw [stepGo_succ, if_neg hc, ← h]

theorem dayGo_eq_some (e : ℕ) (he : e < maxOrdinal) :
    ∀ fuel cur, dayGo fuel cur e = some (stepGo 1 fuel cur e) := by
  intro fuel
  induction fuel with
  | zero => intro cur; rfl
  | succ fuel ih =>
    intro cur
    simp only [dayGo]
    by_cases hc : cur ≤ e
    · rw [if_pos hc, if_pos (show cur + 1 ≤ maxOrdinal by omega), ih (cur + 1),
        Option.map_some', stepGo_succ, if_pos hc]
    · rw [if_neg hc, stepGo_succ, if_neg hc]

theorem dayGo_eq_none (e : ℕ) (he : maxOrdinal ≤ e) :
    ∀ fuel cur, cur ≤ e → cur ≤ maxOrdinal → maxOrdinal < cur + fuel →
      dayGo fuel cur e = none := by
  intro fuel
  induction fuel with
  | zero => intro cur h1 h2 h3; omega
  | succ fuel ih =>
    intro cur h1 h2 h3
    simp only [dayGo]
    rw [if_pos h1]
    by_cases hov : cur + 1 ≤ maxOrdinal
    · rw [if_pos hov, ih (cur + 1) (by omega) hov (by omega), Option.map_none']
    · rw [if_neg hov]

theorem weekGo_eq_some (e : ℕ) (he : e < maxOrdinal - 4) :
    ∀ fuel cur, cur % 7 = 1 → weekGo fuel cur e = some (stepGo 7 fuel cur e) := by
  intro fuel
  induction fuel with
  | zero => intro cur hm; rfl
  | succ fuel ih =>
    intro cur hm
    have hmax : maxOrdinal = 3652059 := rfl
    simp only [weekGo]
    by_cases hc : cur ≤ e
    · rw [if_pos hc, if_pos (show cur + 6 ≤ maxOrdinal by omega),
        if_pos (show cur + 7 ≤ maxOrdinal by omega), ih (cur + 7) (by omega),
        Option.map_some', stepGo_succ, if_pos hc]
    · rw [if_neg hc, stepGo_succ, if_neg hc]

theorem weekGo_eq_none (e : ℕ) (he : maxOrdinal - 4 ≤ e) :
    ∀ fuel cur, cur % 7 = 1 → cur ≤ e → cur ≤ maxOrdinal - 4 →
      maxOrdinal - 4 < cur + 7 * fuel → weekGo fuel cur e = none := by
  intro fuel
  induction fuel with
  | zero => intro cur hm h1 h2 h3; omega
  | succ fuel ih =>
    intro cur hm h1 h2 h3
    have hmax : maxOrdinal = 3652059 := rfl
    simp only [weekGo]
    rw [if_pos h1]
    by_cases hc : cur = maxOrdinal - 4
    · rw [if_neg (show ¬ cur + 6 ≤ maxOrdinal by omega)]
    · have h7 : cur + 7 ≤ maxOrdinal - 4 := by omega
      rw [if_pos (by omega), if_pos (by omega),
        ih (cur + 7) (by omega) (by omega) h7 (by omega), Option.map_none']

theorem dayKeys_eq_some (cur e : ℕ) (h : e < maxOrdinal ∨ e < cur) :
    dayKeys cur e = some (dayKeysFrom cur e) := by
  rcases h with h | h
  · exact dayGo_eq_some e h _ cur
  · unfold dayKeys dayKeysFrom
    rw [show e + 1 - cur = 0 by omega]
    rfl

theorem dayKeys_eq_none (cur e : ℕ) (h1 : cur ≤ e) (h2 : maxOrdinal ≤ e)
    (h3 : cur ≤ maxOrdinal) : dayKeys cur e = none :=
  dayGo_eq_none e h2 _ cur h1 h3 (by omega)

theorem weekKeys_eq_some (cur e : ℕ) (hm : cur % 7 = 1)
    (h : e < maxOrdinal - 4 ∨ e < cur) :
    weekKeys cur e = some (weekKeysFrom cur e) := by
  rcases h with h | h
  · exact weekGo_eq_some e h _ cur hm
  · unfold weekKeys weekKeysFrom
    rw [show e + 1 - cur = 0 by omega]
    rfl

theorem weekKeys_eq_none (cur e : ℕ) (hm : cur % 7 = 1) (h1 : cur ≤ e)
    (h2 : maxOrdinal - 4 ≤ e) (h3 : cur ≤ maxOrdinal - 4) :
    weekKeys cur e = none :=
  weekGo_eq_none e h2 _ cur hm h1 h3 (by omega)

/-- The Monday on or before a real date is itself congruent to ordinal 1
(the Monday 0001-01-01) modulo 7. -/
theorem mondayOnOrBefore_mod (o : ℕ) (h : 1 ≤ o) : mondayOnOrBefore o % 7 = 1 := by
  unfold mondayOnOrBefore weekday
  omega

/-- No Monday of a representable week starts later than 9999-12-27. -/
theorem mondayOnOrBefore_le_sub4 (o : ℕ) (h1 : 1 ≤ o) (h2 : o ≤ maxOrdinal) :
    mondayOnOrBefore o ≤ maxOrdinal - 4 := by
  have hmax : maxOrdinal = 3652059 := rfl
  unfold mondayOnOrBefore weekday
  omega

end RevenueService

namespace RevenueService

/-! Shape of the monthly bucket-key list. -/

theorem monthGo_succ (fuel cy cm ey em : ℕ) :
    monthGo (fuel + 1) cy cm ey em
      = if cy < ey ∨ (cy = ey ∧ cm ≤ em) then
          (cy, cm) :: (if cm = 12 then monthGo fuel (cy + 1) 1 ey em
                       else monthGo fuel cy (cm + 1) ey em)
        else [] := rfl

theorem monthGo_eq_nil (fuel cy cm ey em : ℕ) (h : ¬(cy < ey ∨ (cy = ey ∧ cm ≤ em))) :
    monthGo fuel cy cm ey em = [] := by
  cases fuel with
  | zero => rfl
  | succ fuel => rw [monthGo_succ, if_neg h]

theorem monthGo_eq_nil_iff (fuel cy cm ey em : ℕ) (hf : 1 ≤ fuel) :
    monthGo fuel cy cm ey em = [] ↔ ¬(cy < ey ∨ (cy = ey ∧ cm ≤ em)) := by
  constructor
  · intro hnil hg
    cases fuel with
    | zero => omega
    | succ fuel =>
      rw [monthGo_succ, if_pos hg] at hnil
      exact List.cons_ne_nil _ _ hnil
  · exact monthGo_eq_nil fuel cy cm ey em

theorem monthGo_head (fuel cy cm ey em : ℕ) (hg : cy < ey ∨ (cy = ey ∧ cm ≤ em))
    (hf : 1 ≤ fuel) : (monthGo fuel cy cm ey em).head? = some (cy, cm) := by
  cases fuel with
  | zero => omega
  | succ fuel => rw [monthGo_succ, if_pos hg]; rfl

theorem mem_monthGo (ey em : ℕ) :
    ∀ fuel cy cm : ℕ, ∀ p : ℕ × ℕ, 1 ≤ cm → cm ≤ 12 → p ∈ monthGo fuel cy cm ey em →
      1 ≤ p.2 ∧ p.2 ≤ 12 ∧ 12 * cy + cm ≤ 12 * p.1 + p.2
        ∧ (p.1 < ey ∨ (p.1 = ey ∧ p.2 ≤ em)) := by
  intro fuel
  induction fuel with
  | zero => intro cy cm p h1 h2 hp; simp [monthGo] at hp
  | succ fuel ih =>
    intro cy cm p h1 h2 hp
    by_cases hg : cy < ey ∨ (cy = ey ∧ cm ≤ em)
    · rw [monthGo_succ, if_pos hg] at hp
      rcases List.mem_cons.mp hp with rfl | hp2
      · exact ⟨h1, h2, by omega, hg⟩
      · by_cases h12 : cm = 12
        · rw [if_pos h12] at hp2
          have := ih (cy + 1) 1 p (by omega) (by omega) hp2
          exact ⟨this.1, this.2.1, by omega, this.2.2.2⟩
        · rw [if_neg h12] at hp2
          have := ih cy (cm + 1) p (by omega) (by omega) hp2
          exact ⟨this.1, this.2.1, by omega, this.2.2.2⟩
    · rw [monthGo_succ, if_neg hg] at hp
      exact absurd hp (List.not_mem_nil p)

theorem monthGo_getLast (ey em : ℕ) (hem1 : 1 ≤ em) (hem2 : em ≤ 12) :
    ∀ fuel cy cm : ℕ, 1 ≤ cm → cm ≤ 12 → (cy < ey ∨ (cy = ey ∧ cm ≤ em)) →
      12 * ey + em + 1 - (12 * cy + cm) ≤ fuel →
      (monthGo fuel cy cm ey em).getLast? = some (ey, em) := by
  intro fuel
  induction fuel with
  | zero => intro cy cm h1 h2 hg hf; omega
  | succ fuel ih =>
    intro cy cm h1 h2 hg hf
    rw [monthGo_succ, if_pos hg]
    by_cases hlast : cy = ey ∧ cm = em
    · have tail_nil : (if cm = 12 then monthGo fuel (cy + 1) 1 ey em
          else monthGo fuel cy (cm + 1) ey em) = [] := by
        by_cases h12 : cm = 12
        · rw [if_pos h12]
          exact monthGo_eq_nil fuel (cy + 1) 1 ey em (by omega)
        · rw [if_neg h12]
          exact monthGo_eq_nil fuel cy (cm + 1) ey em (by omega)
      rw [tail_nil]
      have : cy = ey := hlast.1
      have : cm = em := hlast.2
      simp [hlast.1, hlast.2]
    · by_cases h12 : cm = 12
      · rw [if_pos h12]
        have hg2 : cy + 1 < ey ∨ (cy + 1 = ey ∧ 1 ≤ em) := by omega
        have hne : monthGo fuel (cy + 1) 1 ey em ≠ [] := by
          intro hnil
          exact (monthGo_eq_nil_iff fuel (cy + 1) 1 ey em (by omega)).mp hnil hg2
        obtain ⟨a, t, hat⟩ := List.exists_cons_of_ne_nil hne
        rw [hat, List.getLast?_cons_cons, ← hat]
        exact ih (cy + 1) 1 (by omega) (by omega) hg2 (by omega)
      · rw [if_neg h12]
        have hg2 : cy < ey ∨ (cy = ey ∧ cm + 1 ≤ em) := by omega
        have hne : monthGo fuel cy (cm + 1) ey em ≠ [] := by
          intro hnil
          exact (monthGo_eq_nil_iff fuel cy (cm + 1) ey em (by omega)).mp hnil hg2
        obtain ⟨a, t, hat⟩ := List.exists_cons_of_ne_nil hne
        rw [hat, List.getLast?_cons_cons, ← hat]
        exact ih cy (cm + 1) (by omega) (by omega) hg2 (by omega)

theorem monthGo_chain (ey em : ℕ) :
    ∀ fuel cy cm : ℕ,
      List.Chain' (fun p q => q = nextMonthKey p) (monthGo fuel cy cm ey em) := by
  intro fuel
  induction fuel with
  | zero => intro cy cm; exact List.chain'_nil
  | succ fuel ih =>
    intro cy cm
    by_cases hg : cy < ey ∨ (cy = ey ∧ cm ≤ em)
    · rw [monthGo_succ, if_pos hg]
      by_cases h12 : cm = 12
      · rw [if_pos h12]
        refine List.chain'_cons'.mpr ⟨?_, ih (cy + 1) 1⟩
        intro q hq
        cases hfe : monthGo fuel (cy + 1) 1 ey em with
        | nil => rw [hfe] at hq; simp at hq
        | cons a t =>
          have hfuel : 1 ≤ fuel := by
            cases fuel with
            | zero => exact absurd hfe.symm (List.cons_ne_nil a t)
            | succ fuel2 => omega
          have hg2 : cy + 1 < ey ∨ (cy + 1 = ey ∧ 1 ≤ em) := by
            by_contra hng
            rw [monthGo_eq_nil fuel (cy + 1) 1 ey em hng] at hfe
            exact List.cons_ne_nil a t hfe.symm
          have hh := monthGo_head fuel (cy + 1) 1 ey em hg2 hfuel
          rw [hfe] at hh hq
          simp only [List.head?_cons, Option.some.injEq] at hh
          simp only [List.head?_cons, Option.mem_def, Option.some.injEq] at hq
          rw [← hq, hh, nextMonthKey, if_pos h12]
      · rw [if_neg h12]
        refine List.chain'_cons'.mpr ⟨?_, ih cy (cm + 1)⟩
        intro q hq
        cases hfe : monthGo fuel cy (cm + 1) ey em with
        | nil => rw [hfe] at hq; simp at hq
        | cons a t =>
          have hfuel : 1 ≤ fuel := by
            cases fuel with
            | zero => exact absurd hfe.symm (List.cons_ne_nil a t)
            | succ fuel2 => omega
          have hg2 : cy < ey ∨ (cy = ey ∧ cm + 1 ≤ em) := by
            by_contra hng
            rw [monthGo_eq_nil fuel cy (cm + 1) ey em hng] at hfe
            exact List.cons_ne_nil a t hfe.symm
          have hh := monthGo_head fuel cy (cm + 1) ey em hg2 hfuel
          rw [hfe] at hh hq
          simp only [List.head?_cons, Option.some.injEq] at hh
          simp only [List.head?_cons, Option.mem_def, Option.some.injEq] at hq
          rw [← hq, hh, nextMonthKey, if_neg h12]
    · rw [monthGo_succ, if_neg hg]
      exact List.chain'_nil

theorem monthGo_nodup (ey em : ℕ) :
    ∀ fuel cy cm : ℕ, 1 ≤ cm → cm ≤ 12 → (monthGo fuel cy cm ey em).Nodup := by
  intro fuel
  induction fuel with
  | zero => intro cy cm h1 h2; exact List.nodup_nil
  | succ fuel ih =>
    intro cy cm h1 h2
    by_cases hg : cy < ey ∨ (cy = ey ∧ cm ≤ em)
    · rw [monthGo_succ, if_pos hg]
      by_cases h12 : cm = 12
      · rw [if_pos h12]
        refine List.nodup_cons.mpr ⟨?_, ih (cy + 1) 1 (by omega) (by omega)⟩
        intro hmem
        have := mem_monthGo ey em fuel (cy + 1) 1 (cy, cm) (by omega) (by omega) hmem
        omega
      · rw [if_neg h12]
        refine List.nodup_cons.mpr ⟨?_, ih cy (cm + 1) (by omega) (by omega)⟩
        intro hmem
        have := mem_monthGo ey em fuel cy (cm + 1) (cy, cm) (by omega) (by omega) hmem
        omega
    · rw [monthGo_succ, if_neg hg]
      exact List.nodup_nil

end RevenueService

namespace RevenueService

/-! Calendar arithmetic. -/

theorem monthrange_ge_28 (y m : ℕ) : 28 ≤ monthrange y m := by
  unfold monthrange
  split_ifs <;> omega

theorem monthrange_le_31 (y m : ℕ) : monthrange y m ≤ 31 := by
  unfold monthrange
  split_ifs <;> omega

theorem monthrange_12 (y : ℕ) : monthrange y 12 = 31 := by
  unfold monthrange
  norm_num

theorem monthrange_1 (y : ℕ) : monthrange y 1 = 31 := by
  unfold monthrange
  norm_num

theorem daysBeforeMonth_succ (y m : ℕ) (h : 1 ≤ m) :
    daysBeforeMonth y (m + 1) = daysBeforeMonth y m + monthrange y m := by
  cases m with
  | zero => omega
  | succ m2 => simp [daysBeforeMonth]

theorem daysBeforeMonth_le_succ (y m : ℕ) :
    daysBeforeMonth y m ≤ daysBeforeMonth y (m + 1) := by
  cases m with
  | zero => simp [daysBeforeMonth]
  | succ m2 => rw [daysBeforeMonth_succ y (m2 + 1) (by omega)]; omega

theorem daysBeforeMonth_mono (y : ℕ) : ∀ {m m2 : ℕ}, m ≤ m2 →
    daysBeforeMonth y m ≤ daysBeforeMonth y m2 := by
  intro m m2 h
  induction m2 with
  | zero =>
    have : m = 0 := by omega
    simp [this]
  | succ m2 ih =>
    by_cases h2 : m = m2 + 1
    · simp [h2]
    · exact le_trans (ih (by omega)) (daysBeforeMonth_le_succ y m2)

theorem daysBeforeMonth_13 (y : ℕ) : daysBeforeMonth y 13 = daysInYear y := by
  cases h : isleap y <;>
    simp [daysBeforeMonth, monthrange, daysInYear, h]

theorem daysBeforeMonth_add_day_le (y m d : ℕ) (hm : m ≤ 12) (hd : d ≤ monthrange y m) :
    daysBeforeMonth y m + d ≤ daysInYear y := by
  have h31 : monthrange y m ≤ 31 := monthrange_le_31 y m
  by_cases h0 : m = 0
  · subst h0
    have : daysInYear y = if isleap y then 366 else 365 := rfl
    simp only [daysBeforeMonth]
    split_ifs at this <;> omega
  · calc daysBeforeMonth y m + d
        ≤ daysBeforeMonth y m + monthrange y m := by omega
      _ = daysBeforeMonth y (m + 1) := (daysBeforeMonth_succ y m (by omega)).symm
      _ ≤ daysBeforeMonth y 13 := daysBeforeMonth_mono y (by omega)
      _ = daysInYear y := daysBeforeMonth_13 y

theorem daysBeforeYear_succ (y : ℕ) (h : 1 ≤ y) :
    daysBeforeYear (y + 1) = daysBeforeYear y + daysInYear y := by
  cases y with
  | zero => omega
  | succ y2 => simp [daysBeforeYear]

theorem daysBeforeYear_le_succ (y : ℕ) : daysBeforeYear y ≤ daysBeforeYear (y + 1) := by
  cases y with
  | zero => simp [daysBeforeYear]
  | succ y2 => rw [daysBeforeYear_succ (y2 + 1) (by omega)]; omega

theorem daysBeforeYear_mono : ∀ {y y2 : ℕ}, y ≤ y2 →
    daysBeforeYear y ≤ daysBeforeYear y2 := by
  intro y y2 h
  induction y2 with
  | zero =>
    have : y = 0 := by omega
    simp [this]
  | succ y2 ih =>
    by_cases h2 : y = y2 + 1
    · simp [h2]
    · exact le_trans (ih (by omega)) (daysBeforeYear_le_succ y2)

/-- December 31 of year y is immediately followed by January 1 of year y+1. -/
theorem dec31_add_one (y : ℕ) (hy : 1 ≤ y) :
    Date.toordinal ⟨y, 12, 31⟩ + 1 = Date.toordinal ⟨y + 1, 1, 1⟩ := by
  have h13 : daysBeforeMonth y 13 = daysInYear y := daysBeforeMonth_13 y
  have h12 : daysBeforeMonth y 13 = daysBeforeMonth y 12 + monthrange y 12 :=
    daysBeforeMonth_succ y 12 (by omega)
  have hmr : monthrange y 12 = 31 := monthrange_12 y
  have hy1 : daysBeforeYear (y + 1) = daysBeforeYear y + daysInYear y :=
    daysBeforeYear_succ y hy
  simp only [Date.toordinal]
  have hdbm1 : daysBeforeMonth (y + 1) 1 = 0 := rfl
  omega

/-- The last day of a month is immediately followed by the first day of the
next month key. -/
theorem monthEnd_add_one (y m : ℕ) (hy : 1 ≤ y) (hm1 : 1 ≤ m) (hm2 : m ≤ 12) :
    monthEndOrd (y, m) + 1 = monthStartOrd (nextMonthKey (y, m)) := by
  by_cases h12 : m = 12
  · subst h12
    unfold monthEndOrd monthStartOrd nextMonthKey
    simp only [monthrange_12]
    exact dec31_add_one y hy
  · unfold monthEndOrd monthStartOrd nextMonthKey
    simp only [if_neg (show ¬((y, m).2 = 12) from h12)]
    simp only [Date.toordinal]
    have := daysBeforeMonth_succ y m hm1
    omega

/-- Date order agrees with ordinal order at the year and month level. -/
theorem toordinal_lt_of_ym_lt (a b : Date) (ha1 : 1 ≤ a.year) (ham1 : 1 ≤ a.month)
    (ham : a.month ≤ 12) (had : a.day ≤ monthrange a.year a.month) (hbd : 1 ≤ b.day)
    (h : a.year < b.year ∨ (a.year = b.year ∧ a.month < b.month)) :
    a.toordinal < b.toordinal := by
  rcases h with hy | ⟨hy, hm⟩
  · have h1 : daysBeforeMonth a.year a.month + a.day ≤ daysInYear a.year :=
      daysBeforeMonth_add_day_le a.year a.month a.day ham had
    have h2 : daysBeforeYear (a.year + 1) = daysBeforeYear a.year + daysInYear a.year :=
      daysBeforeYear_succ a.year ha1
    have h3 : daysBeforeYear (a.year + 1) ≤ daysBeforeYear b.year :=
      daysBeforeYear_mono (by omega)
    simp only [Date.toordinal]
    omega
  · have h1 : daysBeforeMonth a.year a.month + a.day ≤ daysBeforeMonth a.year (a.month + 1) := by
      rw [daysBeforeMonth_succ a.year a.month ham1]
      omega
    have h2 : daysBeforeMonth a.year (a.month + 1) ≤ daysBeforeMonth a.year b.month :=
      daysBeforeMonth_mono a.year (by omega)
    rw [hy] at h1 h2
    simp only [Date.toordinal, hy]
    omega

/-- Contrapositive form: an ordinal-ordered pair of valid dates is ordered
at the (year, month) level as the monthly loop compares them. -/
theorem ym_le_of_toordinal_le (a b : Date) (ha : a.IsValid) (hb : b.IsValid)
    (h : a.toordinal ≤ b.toordinal) :
    a.year < b.year ∨ (a.year = b.year ∧ a.month ≤ b.month) := by
  by_contra hng
  have : b.year < a.year ∨ (b.year = a.year ∧ b.month < a.month) := by
    rcases Nat.lt_trichotomy a.year b.year with h1 | h1 | h1
    · exact absurd (Or.inl h1) hng
    · right
      refine ⟨h1.symm, ?_⟩
      by_contra hm
      exact hng (Or.inr ⟨h1, by omega⟩)
    · exact Or.inl h1
  have := toordinal_lt_of_ym_lt b a hb.1 hb.2.2.1 hb.2.2.2.1 hb.2.2.2.2.2 ha.2.2.2.2.1 this
  omega

/-- Annual version of the previous lemma. -/
theorem year_le_of_toordinal_le (a b : Date) (ha : a.IsValid) (hb : b.IsValid)
    (h : a.toordinal ≤ b.toordinal) : a.year ≤ b.year := by
  rcases ym_le_of_toordinal_le a b ha hb h with h1 | ⟨h1, _⟩ <;> omega

theorem isleap_iff (y : ℕ) :
    isleap y = true ↔ (y % 4 = 0 ∧ (y % 100 ≠ 0 ∨ y % 400 = 0)) := by
  unfold isleap
  simp [Bool.and_eq_true, Bool.or_eq_true, beq_iff_eq, bne_iff_ne]

/-- Closed form of the day count before a year, as CPython computes it in
_days_before_year: with y the predecessor year count, 365 y + y / 4
- y / 100 + y / 400 (stated additively to stay in ℕ). -/
theorem daysBeforeYear_closed : ∀ y : ℕ,
    daysBeforeYear (y + 1) + y / 100 = 365 * y + y / 4 + y / 400 := by
  intro y
  induction y with
  | zero => rfl
  | succ y ih =>
    have hstep : daysBeforeYear (y + 1 + 1) = daysBeforeYear (y + 1) + daysInYear (y + 1) :=
      daysBeforeYear_succ (y + 1) (by omega)
    rcases Bool.eq_false_or_eq_true (isleap (y + 1)) with hl | hl
    · obtain ⟨h4, hor⟩ := (isleap_iff (y + 1)).mp hl
      have hval : daysInYear (y + 1) = 366 := by
        unfold daysInYear
        rw [hl]
        rfl
      rcases hor with h100 | h400
      · have d4 : (y + 1) / 4 = y / 4 + 1 := by clear ih hstep hval; omega
        have d100 : (y + 1) / 100 = y / 100 := by clear ih hstep hval d4; omega
        have d400 : (y + 1) / 400 = y / 400 := by clear ih hstep hval d4 d100; omega
        omega
      · have d4 : (y + 1) / 4 = y / 4 + 1 := by clear ih hstep hval; omega
        have d100 : (y + 1) / 100 = y / 100 + 1 := by clear ih hstep hval d4; omega
        have d400 : (y + 1) / 400 = y / 400 + 1 := by clear ih hstep hval d4 d100; omega
        omega
    · have hnot : ¬ ((y + 1) % 4 = 0 ∧ ((y + 1) % 100 ≠ 0 ∨ (y + 1) % 400 = 0)) := by
        rw [← isleap_iff]
        simp [hl]
      have hval : daysInYear (y + 1) = 365 := by
        unfold daysInYear
        rw [hl]
        rfl
      by_cases h4 : (y + 1) % 4 = 0
      · have h100 : (y + 1) % 100 = 0 := by
          by_contra hc
          exact hnot ⟨h4, Or.inl hc⟩
        have h400 : (y + 1) % 400 ≠ 0 := fun hc => hnot ⟨h4, Or.inr hc⟩
        have d4 : (y + 1) / 4 = y / 4 + 1 := by clear ih hstep hval hnot; omega
        have d100 : (y + 1) / 100 = y / 100 + 1 := by clear ih hstep hval hnot d4; omega
        have d400 : (y + 1) / 400 = y / 400 := by clear ih hstep hval hnot d4 d100; omega
        omega
      · have d4 : (y + 1) / 4 = y / 4 := by clear ih hstep hval hnot; omega
        have d100 : (y + 1) / 100 = y / 100 := by clear ih hstep hval hnot d4; omega
        have d400 : (y + 1) / 400 = y / 400 := by clear ih hstep hval hnot d4 d100; omega
        omega

theorem daysBeforeYear_9999 : daysBeforeYear 9999 = 3651694 := by
  have h := daysBeforeYear_closed 9998
  norm_num at h
  omega

theorem daysBeforeYear_10000 : daysBeforeYear 10000 = 3652059 := by
  have h := daysBeforeYear_closed 9999
  norm_num at h
  omega

/-- Every representable date has ordinal at most date.max.toordinal(). -/
theorem toordinal_le_max (a : Date) (ha : a.IsValid) : a.toordinal ≤ maxOrdinal := by
  obtain ⟨h1, h9, h2, h3, h4, h5⟩ := ha
  have hin : daysBeforeMonth a.year a.month + a.day ≤ daysInYear a.year :=
    daysBeforeMonth_add_day_le a.year a.month a.day h3 h5
  have hs : daysBeforeYear (a.year + 1) = daysBeforeYear a.year + daysInYear a.year :=
    daysBeforeYear_succ a.year h1
  have hm : daysBeforeYear (a.year + 1) ≤ daysBeforeYear 10000 :=
    daysBeforeYear_mono (by omega)
  have h10 : daysBeforeYear 10000 = 3652059 := daysBeforeYear_10000
  have hmax : maxOrdinal = 3652059 := rfl
  unfold Date.toordinal
  omega

/-- Ordinals of the December 9999 dates, where the overflow corner sits. -/
theorem toordinal_9999_12 (d : ℕ) : Date.toordinal ⟨9999, 12, d⟩ = 3652028 + d := by
  show daysBeforeYear 9999 + daysBeforeMonth 9999 12 + d = 3652028 + d
  have h9 := daysBeforeYear_9999
  have hm : daysBeforeMonth 9999 12 = 334 := by decide
  omega

/-- Every valid positive ordinal: a valid date has ordinal at least 1. -/
theorem toordinal_pos (a : Date) (ha : a.IsValid) : 1 ≤ a.toordinal := by
  obtain ⟨h1, h9, h2, h3, h4, h5⟩ := ha
  unfold Date.toordinal
  omega

end RevenueService

namespace RevenueService

/-! Bucket coverage (claim C3). -/

theorem stepped_cover (step : ℕ) (hs : 1 ≤ step) (lo e cur : ℕ) (hcl : cur ≤ lo)
    (hle : lo ≤ e) :
    IsCover lo e ((stepGo step (e + 1 - cur) cur e).map (fun k => (k, k + (step - 1)))) := by
  have hfuel : 1 ≤ e + 1 - cur := by omega
  refine ⟨?_, ?_, ?_, ?_, ?_⟩
  · intro hnil
    rcases List.map_eq_nil_iff.mp hnil with h
    have := (stepGo_eq_nil_iff step (e + 1 - cur) cur e hfuel).mp h
    omega
  · intro b hb
    obtain ⟨k, hk, rfl⟩ := List.mem_map.mp hb
    simp only
    omega
  · intro b hb
    rw [List.head?_map, stepGo_head step _ cur e (by omega) hfuel] at hb
    simp only [Option.map_some', Option.mem_def, Option.some.injEq] at hb
    subst hb
    simpa using hcl
  · intro b hb
    obtain ⟨l, hl, hle2, hlt⟩ := stepGo_getLast step hs e (e + 1 - cur) cur (by omega) (le_refl _)
    rw [List.getLast?_map, hl] at hb
    simp only [Option.map_some', Option.mem_def, Option.some.injEq] at hb
    subst hb
    simp only
    omega
  · refine List.chain'_map_of_chain' _ ?_ (stepGo_chain step e (e + 1 - cur) cur)
    intro a b hab
    simp only
    omega

/-- The chain of monthly bucket bounds: each month ends the day before the
next generated month starts. -/
theorem monthGo_chain_ord (ey em : ℕ) :
    ∀ fuel cy cm : ℕ, 1 ≤ cy → 1 ≤ cm → cm ≤ 12 →
      List.Chain' (fun p q => q.1 = p.2 + 1)
        ((monthGo fuel cy cm ey em).map (fun k => (monthStartOrd k, monthEndOrd k))) := by
  intro fuel
  induction fuel with
  | zero => intro cy cm hy h1 h2; exact List.chain'_nil
  | succ fuel ih =>
    intro cy cm hy h1 h2
    by_cases hg : cy < ey ∨ (cy = ey ∧ cm ≤ em)
    · rw [monthGo_succ, if_pos hg]
      by_cases h12 : cm = 12
      · rw [if_pos h12, List.map_cons]
        refine List.chain'_cons'.mpr ⟨?_, ih (cy + 1) 1 (by omega) (by omega) (by omega)⟩
        intro q hq
        cases hfe : monthGo fuel (cy + 1) 1 ey em with
        | nil => rw [hfe] at hq; simp at hq
        | cons a t =>
          have hfuel : 1 ≤ fuel := by
            cases fuel with
            | zero => exact absurd hfe.symm (List.cons_ne_nil a t)
            | succ fuel2 => omega
          have hg2 : cy + 1 < ey ∨ (cy + 1 = ey ∧ 1 ≤ em) := by
            by_contra hng
            rw [monthGo_eq_nil fuel (cy + 1) 1 ey em hng] at hfe
            exact List.cons_ne_nil a t hfe.symm
          have hh := monthGo_head fuel (cy + 1) 1 ey em hg2 hfuel
          rw [hfe] at hh hq
          simp only [List.map_cons, List.head?_cons, Option.mem_def, Option.some.injEq] at hh hq
          have hstep := monthEnd_add_one cy cm hy h1 h2
          rw [← hq, hh]
          rw [show nextMonthKey (cy, cm) = (cy + 1, 1) by rw [nextMonthKey, if_pos h12]] at hstep
          exact hstep.symm
      · rw [if_neg h12, List.map_cons]
        refine List.chain'_cons'.mpr ⟨?_, ih cy (cm + 1) (by omega) (by omega) (by omega)⟩
        intro q hq
        cases hfe : monthGo fuel cy (cm + 1) ey em with
        | nil => rw [hfe] at hq; simp at hq
        | cons a t =>
          have hfuel : 1 ≤ fuel := by
            cases fuel with
            | zero => exact absurd hfe.symm (List.cons_ne_nil a t)
            | succ fuel2 => omega
          have hg2 : cy < ey ∨ (cy = ey ∧ cm + 1 ≤ em) := by
            by_contra hng
            rw [monthGo_eq_nil fuel cy (cm + 1) ey em hng] at hfe
            exact List.cons_ne_nil a t hfe.symm
          have hh := monthGo_head fuel cy (cm + 1) ey em hg2 hfuel
          rw [hfe] at hh hq
          simp only [List.map_cons, List.head?_cons, Option.mem_def, Option.some.injEq] at hh hq
          have hstep := monthEnd_add_one cy cm hy h1 h2
          rw [← hq, hh]
          rw [show nextMonthKey (cy, cm) = (cy, cm + 1) by rw [nextMonthKey, if_neg h12]] at hstep
          exact hstep.symm
    · rw [monthGo_succ, if_neg hg]
      exact List.chain'_nil

/-- The chain of annual bucket bounds. -/
theorem yearGo_chain_ord (e : ℕ) :
    ∀ fuel cur : ℕ, 1 ≤ cur →
      List.Chain' (fun p q => q.1 = p.2 + 1)
        ((stepGo 1 fuel cur e).map (fun y => (yearStartOrd y, yearEndOrd y))) := by
  intro fuel
  induction fuel with
  | zero => intro cur hcur; exact List.chain'_nil
  | succ fuel ih =>
    intro cur hcur
    by_cases h : cur ≤ e
    · rw [stepGo_succ, if_pos h, List.map_cons]
      refine List.chain'_cons'.mpr ⟨?_, ih (cur + 1) (by omega)⟩
      intro q hq
      cases hfe : stepGo 1 fuel (cur + 1) e with
      | nil => rw [hfe] at hq; simp at hq
      | cons a t =>
        have hfuel : 1 ≤ fuel := by
          cases fuel with
          | zero => exact absurd hfe.symm (List.cons_ne_nil a t)
          | succ fuel2 => omega
        have hne : ¬ e < cur + 1 := by
          intro hlt
          rw [stepGo_eq_nil 1 fuel (cur + 1) e (by omega)] at hfe
          exact List.cons_ne_nil a t hfe.symm
        have hh := stepGo_head 1 fuel (cur + 1) e (by omega) hfuel
        rw [hfe] at hh hq
        simp only [List.map_cons, List.head?_cons, Option.mem_def, Option.some.injEq] at hh hq
        have hstep : yearEndOrd cur + 1 = yearStartOrd (cur + 1) := by
          unfold yearEndOrd yearStartOrd
          exact dec31_add_one cur hcur
        rw [← hq, hh]
        exact hstep.symm
    · rw [stepGo_succ, if_neg h]
      exact List.chain'_nil

end RevenueService

namespace RevenueService

theorem bounds_day (sales : List Sale) (ks : List ℕ) :
    bounds (dayRecords sales ks) = ks.map (fun k => (k, k)) := by
  rw [dayRecords_eq]
  simp [bounds, List.map_map, mkResponse]

theorem bounds_week (sales : List Sale) (ks : List ℕ) :
    bounds (weekRecords sales ks) = ks.map (fun k => (k, k + 6)) := by
  rw [weekRecords_eq]
  simp [bounds, List.map_map, mkResponse]

theorem bounds_month (sales : List Sale) (s e : Date) :
    bounds (group_revenue_by_month sales s e)
      = (monthKeysFrom s.year s.month e.year e.month).map
          (fun k => (monthStartOrd k, monthEndOrd k)) := by
  rw [group_revenue_by_month_eq]
  simp [bounds, List.map_map, mkResponse]

theorem bounds_year (sales : List Sale) (sy ey : ℕ) :
    bounds (group_revenue_by_year sales sy ey)
      = (yearKeys sy ey).map (fun k => (yearStartOrd k, yearEndOrd k)) := by
  rw [group_revenue_by_year_eq]
  simp [bounds, List.map_map, mkResponse]

theorem month_cover (s e : Date) (hs : s.IsValid) (he : e.IsValid)
    (hle : s.toordinal ≤ e.toordinal) :
    IsCover s.toordinal e.toordinal
      ((monthKeysFrom s.year s.month e.year e.month).map
        (fun k => (monthStartOrd k, monthEndOrd k))) := by
  obtain ⟨hs1, hs9, hs2, hs3, hs4, hs5⟩ := hs
  obtain ⟨he1, he9, he2, he3, he4, he5⟩ := he
  have hg : s.year < e.year ∨ (s.year = e.year ∧ s.month ≤ e.month) :=
    ym_le_of_toordinal_le s e ⟨hs1, hs9, hs2, hs3, hs4, hs5⟩
      ⟨he1, he9, he2, he3, he4, he5⟩ hle
  unfold monthKeysFrom
  have hfuel : 1 ≤ 12 * e.year + e.month + 1 - (12 * s.year + s.month) := by omega
  refine ⟨?_, ?_, ?_, ?_, ?_⟩
  · intro hnil
    rcases List.map_eq_nil_iff.mp hnil with h
    exact (monthGo_eq_nil_iff _ s.year s.month e.year e.month hfuel).mp h hg
  · intro b hb
    obtain ⟨p, hp, rfl⟩ := List.mem_map.mp hb
    have h28 := monthrange_ge_28 p.1 p.2
    unfold monthStartOrd monthEndOrd
    simp only [Date.toordinal]
    omega
  · intro b hb
    rw [List.head?_map, monthGo_head _ s.year s.month e.year e.month hg hfuel] at hb
    simp only [Option.map_some', Option.mem_def, Option.some.injEq] at hb
    subst hb
    unfold monthStartOrd
    simp only [Date.toordinal]
    omega
  · intro b hb
    rw [List.getLast?_map,
      monthGo_getLast e.year e.month he2 he3 _ s.year s.month hs2 hs3 hg (le_refl _)] at hb
    simp only [Option.map_some', Option.mem_def, Option.some.injEq] at hb
    subst hb
    unfold monthEndOrd
    simp only [Date.toordinal]
    omega
  · exact monthGo_chain_ord e.year e.month _ s.year s.month hs1 hs2 hs3

theorem year_cover (s e : Date) (hs : s.IsValid) (he : e.IsValid)
    (hle : s.toordinal ≤ e.toordinal) :
    IsCover s.toordinal e.toordinal
      ((yearKeys s.year e.year).map (fun y => (yearStartOrd y, yearEndOrd y))) := by
  obtain ⟨hs1, hs9, hs2, hs3, hs4, hs5⟩ := hs
  obtain ⟨he1, he9, he2, he3, he4, he5⟩ := he
  have hy : s.year ≤ e.year :=
    year_le_of_toordinal_le s e ⟨hs1, hs9, hs2, hs3, hs4, hs5⟩
      ⟨he1, he9, he2, he3, he4, he5⟩ hle
  unfold yearKeys
  have hfuel : 1 ≤ e.year + 1 - s.year := by omega
  refine ⟨?_, ?_, ?_, ?_, ?_⟩
  · intro hnil
    rcases List.map_eq_nil_iff.mp hnil with h
    have := (stepGo_eq_nil_iff 1 _ s.year e.year hfuel).mp h
    omega
  · intro b hb
    obtain ⟨y, hmem, rfl⟩ := List.mem_map.mp hb
    have hmono : daysBeforeMonth y 1 ≤ daysBeforeMonth y 12 := daysBeforeMonth_mono y (by omega)
    unfold yearStartOrd yearEndOrd
    simp only [Date.toordinal]
    omega
  · intro b hb
    rw [List.head?_map, stepGo_head 1 _ s.year e.year (by omega) hfuel] at hb
    simp only [Option.map_some', Option.mem_def, Option.some.injEq] at hb
    subst hb
    have h1 : daysBeforeMonth s.year 1 = 0 := rfl
    unfold yearStartOrd
    simp only [Date.toordinal]
    omega
  · intro b hb
    obtain ⟨l, hl, hle2, hlt⟩ :=
      stepGo_getLast 1 (by omega) e.year (e.year + 1 - s.year) s.year (by omega) (le_refl _)
    have hley : l = e.year := by omega
    subst hley
    rw [List.getLast?_map, hl] at hb
    simp only [Option.map_some', Option.mem_def, Option.some.injEq] at hb
    subst hb
    have hin : daysBeforeMonth e.year e.month + e.day ≤ daysInYear e.year :=
      daysBeforeMonth_add_day_le e.year e.month e.day he3 he5
    have h13 : daysBeforeMonth e.year 13 = daysInYear e.year := daysBeforeMonth_13 e.year
    have h12 : daysBeforeMonth e.year 13 = daysBeforeMonth e.year 12 + monthrange e.year 12 :=
      daysBeforeMonth_succ e.year 12 (by omega)
    have hmr : monthrange e.year 12 = 31 := monthrange_12 e.year
    unfold yearEndOrd
    simp only [Date.toordinal]
    omega
  · exact yearGo_chain_ord e.year _ s.year hs1

/-- C3 amended: whenever the grouping pipeline returns, the emitted bucket
sequence is non-empty, its first bucket starts on or before start, its last
bucket ends on or after end, every bucket has period_start <= period_end,
and consecutive buckets are contiguous, each starting the day after the
previous one ends; but instead of returning, daily grouping raises
OverflowError exactly when end_date is 9999-12-31, and weekly grouping
exactly when end_date is on or after Monday 9999-12-27. -/
theorem C3_bucket_coverage (g : RevenuePeriodEnum) (sales : List Sale) (s e : Date)
    (hs : s.IsValid) (he : e.IsValid) (hle : s.toordinal ≤ e.toordinal) :
    (∀ out, groupRevenue g sales s e = some out →
        IsCover s.toordinal e.toordinal (bounds out))
    ∧ (groupRevenue g sales s e = none ↔
        ((g = .daily ∧ e.toordinal = maxOrdinal)
          ∨ (g = .weekly ∧ maxOrdinal - 4 ≤ e.toordinal))) := by
  have hsmax := toordinal_le_max s hs
  have hemax := toordinal_le_max e he
  have hspos := toordinal_pos s hs
  cases g with
  | daily =>
    constructor
    · intro out hout
      rw [show groupRevenue .daily sales s e
          = (dayKeys s.toordinal e.toordinal).map (dayRecords sales) from rfl] at hout
      obtain ⟨ks, hks, hrec⟩ := Option.map_eq_some.mp hout
      have hksd := dayGo_some_inv e.toordinal _ s.toordinal ks hks
      subst hksd
      rw [← hrec, bounds_day]
      exact stepped_cover 1 (by omega) s.toordinal e.toordinal s.toordinal (le_refl _) hle
    · rw [show groupRevenue .daily sales s e
          = (dayKeys s.toordinal e.toordinal).map (dayRecords sales) from rfl]
      constructor
      · intro hnone
        by_cases hlt : e.toordinal < maxOrdinal
        · rw [dayKeys_eq_some _ _ (Or.inl hlt)] at hnone
          exact Option.noConfusion hnone
        · exact Or.inl ⟨rfl, by omega⟩
      · rintro (⟨-, hmax⟩ | ⟨hcontra, -⟩)
        · rw [dayKeys_eq_none _ _ hle (by omega) (by omega)]
          rfl
        · exact RevenuePeriodEnum.noConfusion hcontra
  | weekly =>
    have hmod := mondayOnOrBefore_mod s.toordinal hspos
    have hmle : mondayOnOrBefore s.toordinal ≤ s.toordinal := Nat.sub_le _ _
    have hm4 := mondayOnOrBefore_le_sub4 s.toordinal hspos hsmax
    constructor
    · intro out hout
      rw [show groupRevenue .weekly sales s e
          = (weekKeys (mondayOnOrBefore s.toordinal) e.toordinal).map (weekRecords sales)
          from rfl] at hout
      obtain ⟨ks, hks, hrec⟩ := Option.map_eq_some.mp hout
      have hksd := weekGo_some_inv e.toordinal _ (mondayOnOrBefore s.toordinal) ks hks
      subst hksd
      rw [← hrec, bounds_week]
      exact stepped_cover 7 (by omega) s.toordinal e.toordinal
        (mondayOnOrBefore s.toordinal) hmle hle
    · rw [show groupRevenue .weekly sales s e
          = (weekKeys (mondayOnOrBefore s.toordinal) e.toordinal).map (weekRecords sales)
          from rfl]
      constructor
      · intro hnone
        by_cases hlt : e.toordinal < maxOrdinal - 4
        · rw [weekKeys_eq_some _ _ hmod (Or.inl hlt)] at hnone
          exact Option.noConfusion hnone
        · exact Or.inr ⟨rfl, by omega⟩
      · rintro (⟨hcontra, -⟩ | ⟨-, hge⟩)
        · exact RevenuePeriodEnum.noConfusion hcontra
        · rw [weekKeys_eq_none _ _ hmod (by omega) hge hm4]
          rfl
  | monthly =>
    constructor
    · intro out hout
      rw [show groupRevenue .monthly sales s e
          = some (group_revenue_by_month sales s e) from rfl, Option.some.injEq] at hout
      rw [← hout]
      rw [show bounds (group_revenue_by_month sales s e)
          = (monthKeysFrom s.year s.month e.year e.month).map
              (fun k => (monthStartOrd k, monthEndOrd k)) from bounds_month sales s e]
      exact month_cover s e hs he hle
    · constructor
      · intro hnone
        exact Option.noConfusion hnone
      · rintro (⟨hcontra, -⟩ | ⟨hcontra, -⟩) <;> exact RevenuePeriodEnum.noConfusion hcontra
  | annual =>
    constructor
    · intro out hout
      rw [show groupRevenue .annual sales s e
          = some (group_revenue_by_year sales s.year e.year) from rfl,
        Option.some.injEq] at hout
      rw [← hout]
      rw [show bounds (group_revenue_by_year sales s.year e.year)
          = (yearKeys s.year e.year).map (fun k => (yearStartOrd k, yearEndOrd k))
          from bounds_year sales s.year e.year]
      exact year_cover s e hs he hle
    · constructor
      · intro hnone
        exact Option.noConfusion hnone
      · rintro (⟨hcontra, -⟩ | ⟨hcontra, -⟩) <;> exact RevenuePeriodEnum.noConfusion hcontra

/-- Witness for C3 at a concrete monthly range 0001-01-03 .. 0001-02-05. -/
theorem C3_bucket_coverage_witness :
    IsCover (Date.toordinal ⟨1, 1, 3⟩) (Date.toordinal ⟨1, 2, 5⟩)
      (bounds (group_revenue_by_month [] ⟨1, 1, 3⟩ ⟨1, 2, 5⟩)) :=
  (C3_bucket_coverage .monthly [] ⟨1, 1, 3⟩ ⟨1, 2, 5⟩ (by decide) (by decide) (by decide)).1
    (group_revenue_by_month [] ⟨1, 1, 3⟩ ⟨1, 2, 5⟩) rfl

/-- Counterexample to C3 as stated: at the top of the representable range
the daily loop does not return a covering bucket sequence - end_date
9999-12-31 makes current_date += timedelta(days=1) cross date.max, raising
OverflowError. -/
theorem C3_bucket_coverage_cex :
    Date.IsValid ⟨9999, 12, 31⟩
    ∧ groupRevenue .daily [] ⟨9999, 12, 31⟩ ⟨9999, 12, 31⟩ = none := by
  refine ⟨by decide, ?_⟩
  rw [show groupRevenue .daily [] ⟨9999, 12, 31⟩ ⟨9999, 12, 31⟩
      = (dayKeys (Date.toordinal ⟨9999, 12, 31⟩) (Date.toordinal ⟨9999, 12, 31⟩)).map
          (dayRecords []) from rfl]
  have h31 : Date.toordinal ⟨9999, 12, 31⟩ = 3652059 := toordinal_9999_12 31
  rw [h31, dayKeys_eq_none 3652059 3652059 (le_refl _) (le_refl _) (le_refl _)]
  rfl

end RevenueService

namespace RevenueService

/-! Conservation (claims C4 and C6) and order invariance (claim C9). -/

theorem sumRev_keys {κ : Type} [DecidableEq κ] (key : Sale → κ) (ks : List κ)
    (hks : ks.Nodup) (pred : Sale → Bool) (hpred : ∀ x, pred x = true ↔ key x ∈ ks)
    (b1 b2 : κ → ℕ) (sales : List Sale) :
    sumRev (ks.map fun k => mkResponse (b1 k) (b2 k) (accFor key k sales))
      = ((sales.filter pred).map Sale.total_amount).sum := by
  unfold sumRev
  rw [List.map_map]
  have hpt : ∀ k ∈ ks,
      (RevenueResponse.total_revenue ∘ fun k => mkResponse (b1 k) (b2 k) (accFor key k sales)) k
        = ((sales.filter fun x => decide (k = key x)).map Sale.total_amount).sum := by
    intro k _
    show (mkResponse (b1 k) (b2 k) (accFor key k sales)).total_revenue = _
    rw [accFor_eq_filter]
    rfl
  rw [List.map_congr_left hpt]
  exact sum_filtered_over_keys key Sale.total_amount ks hks pred hpred sales

theorem sumSales_keys {κ : Type} [DecidableEq κ] (key : Sale → κ) (ks : List κ)
    (hks : ks.Nodup) (pred : Sale → Bool) (hpred : ∀ x, pred x = true ↔ key x ∈ ks)
    (b1 b2 : κ → ℕ) (sales : List Sale) :
    sumSales (ks.map fun k => mkResponse (b1 k) (b2 k) (accFor key k sales))
      = ((sales.filter pred).map Sale.units).sum := by
  unfold sumSales
  rw [List.map_map]
  have hpt : ∀ k ∈ ks,
      (RevenueResponse.total_sales ∘ fun k => mkResponse (b1 k) (b2 k) (accFor key k sales)) k
        = ((sales.filter fun x => decide (k = key x)).map Sale.units).sum := by
    intro k _
    show (mkResponse (b1 k) (b2 k) (accFor key k sales)).total_sales = _
    rw [accFor_eq_filter]
    rfl
  rw [List.map_congr_left hpt]
  exact sum_filtered_over_keys key Sale.units ks hks pred hpred sales

/-- Month keys move strictly forward in the measure 12 * year + month. -/
theorem mem_monthGo_measure (ey em : ℕ) :
    ∀ fuel cy cm : ℕ, ∀ p : ℕ × ℕ, p ∈ monthGo fuel cy cm ey em →
      12 * cy + cm ≤ 12 * p.1 + p.2 := by
  intro fuel
  induction fuel with
  | zero => intro cy cm p hp; simp [monthGo] at hp
  | succ fuel ih =>
    intro cy cm p hp
    by_cases hg : cy < ey ∨ (cy = ey ∧ cm ≤ em)
    · rw [monthGo_succ, if_pos hg] at hp
      rcases List.mem_cons.mp hp with rfl | hp2
      · omega
      · by_cases h12 : cm = 12
        · rw [if_pos h12] at hp2
          have := ih (cy + 1) 1 p hp2
          omega
        · rw [if_neg h12] at hp2
          have := ih cy (cm + 1) p hp2
          omega
    · rw [monthGo_succ, if_neg hg] at hp
      exact absurd hp (List.not_mem_nil p)

/-- The generated month-key list never repeats a key, for any inputs. -/
theorem monthGo_nodup_all (ey em : ℕ) :
    ∀ fuel cy cm : ℕ, (monthGo fuel cy cm ey em).Nodup := by
  intro fuel
  induction fuel with
  | zero => intro cy cm; exact List.nodup_nil
  | succ fuel ih =>
    intro cy cm
    by_cases hg : cy < ey ∨ (cy = ey ∧ cm ≤ em)
    · rw [monthGo_succ, if_pos hg]
      by_cases h12 : cm = 12
      · rw [if_pos h12]
        refine List.nodup_cons.mpr ⟨?_, ih (cy + 1) 1⟩
        intro hmem
        have := mem_monthGo_measure ey em fuel (cy + 1) 1 (cy, cm) hmem
        omega
      · rw [if_neg h12]
        refine List.nodup_cons.mpr ⟨?_, ih cy (cm + 1)⟩
        intro hmem
        have := mem_monthGo_measure ey em fuel cy (cm + 1) (cy, cm) hmem
        omega
    · rw [monthGo_succ, if_neg hg]
      exact List.nodup_nil

/-- C4: for every granularity, range and sale collection, whenever the
grouping pipeline returns, the revenue totals of the returned records sum
to exactly the total_amount sum of those sales whose recomputed assignment
key exists in the generated bucket set; a sale whose key is absent
contributes nothing and raises nothing. -/
theorem C4_conservation (g : RevenuePeriodEnum) (sales : List Sale) (s e : Date)
    (out : List RevenueResponse) (hout : groupRevenue g sales s e = some out) :
    sumRev out = ((sales.filter (keyInBuckets g s e)).map Sale.total_amount).sum := by
  cases g with
  | daily =>
    rw [show groupRevenue .daily sales s e
        = (dayKeys s.toordinal e.toordinal).map (dayRecords sales) from rfl] at hout
    obtain ⟨ks, hks, hrec⟩ := Option.map_eq_some.mp hout
    have hksd := dayGo_some_inv e.toordinal _ s.toordinal ks hks
    subst hksd
    rw [← hrec, dayRecords_eq]
    exact sumRev_keys dayKey (dayKeysFrom s.toordinal e.toordinal)
      (stepGo_nodup 1 (by omega) e.toordinal _ s.toordinal)
      (keyInBuckets .daily s e) (fun x => by simp [keyInBuckets])
      (fun k => k) (fun k => k) sales
  | weekly =>
    rw [show groupRevenue .weekly sales s e
        = (weekKeys (mondayOnOrBefore s.toordinal) e.toordinal).map (weekRecords sales)
        from rfl] at hout
    obtain ⟨ks, hks, hrec⟩ := Option.map_eq_some.mp hout
    have hksd := weekGo_some_inv e.toordinal _ (mondayOnOrBefore s.toordinal) ks hks
    subst hksd
    rw [← hrec, weekRecords_eq]
    exact sumRev_keys weekKey (weekKeysFrom (mondayOnOrBefore s.toordinal) e.toordinal)
      (stepGo_nodup 7 (by omega) e.toordinal _ (mondayOnOrBefore s.toordinal))
      (keyInBuckets .weekly s e) (fun x => by simp [keyInBuckets])
      (fun k => k) (fun k => k + 6) sales
  | monthly =>
    rw [show groupRevenue .monthly sales s e
        = some (group_revenue_by_month sales s e) from rfl, Option.some.injEq] at hout
    rw [← hout, group_revenue_by_month_eq]
    exact sumRev_keys monthKey (monthKeysFrom s.year s.month e.year e.month)
      (monthGo_nodup_all e.year e.month _ s.year s.month)
      (keyInBuckets .monthly s e) (fun x => by simp [keyInBuckets])
      monthStartOrd monthEndOrd sales
  | annual =>
    rw [show groupRevenue .annual sales s e
        = some (group_revenue_by_year sales s.year e.year) from rfl,
      Option.some.injEq] at hout
    rw [← hout, group_revenue_by_year_eq]
    exact sumRev_keys yearKey (yearKeys s.year e.year)
      (stepGo_nodup 1 (by omega) e.year _ s.year)
      (keyInBuckets .annual s e) (fun x => by simp [keyInBuckets])
      yearStartOrd yearEndOrd sales

/-- Witness for C4 on one daily bucket with no sales. -/
theorem C4_conservation_witness :
    groupRevenue .daily [] ⟨1, 1, 1⟩ ⟨1, 1, 1⟩ = some (dayRecords [] (dayKeysFrom 1 1))
    ∧ sumRev (dayRecords [] (dayKeysFrom 1 1))
        = ((([] : List Sale).filter (keyInBuckets .daily ⟨1, 1, 1⟩ ⟨1, 1, 1⟩)).map
            Sale.total_amount).sum :=
  ⟨rfl, C4_conservation .daily [] ⟨1, 1, 1⟩ ⟨1, 1, 1⟩ (dayRecords [] (dayKeysFrom 1 1)) rfl⟩

/-- Folding a permutation of the sales into a bucket gives the same
accumulator. -/
theorem accFor_perm {κ : Type} [DecidableEq κ] (key : Sale → κ) (k : κ)
    {sales sales2 : List Sale} (hp : sales.Perm sales2) :
    accFor key k sales = accFor key k sales2 := by
  rw [accFor_eq_filter, accFor_eq_filter]
  have hf : (sales.filter fun x => decide (k = key x)).Perm
      (sales2.filter fun x => decide (k = key x)) := hp.filter _
  have h1 := ((hf.map Sale.total_amount)).sum_eq
  have h2 := ((hf.map Sale.units)).sum_eq
  have h3 := hf.length_eq
  rw [h1, h2, h3]

/-- C9: the grouped output - every aggregate, the order of the emitted
records, and whether the run raises - is invariant under any permutation of
the input sale collection. -/
theorem C9_order_invariance (g : RevenuePeriodEnum) (s e : Date)
    (sales sales2 : List Sale) (hp : sales.Perm sales2) :
    groupRevenue g sales s e = groupRevenue g sales2 s e := by
  cases g with
  | daily =>
    show (dayKeys s.toordinal e.toordinal).map (dayRecords sales)
      = (dayKeys s.toordinal e.toordinal).map (dayRecords sales2)
    have hfun : dayRecords sales = dayRecords sales2 := by
      funext ks
      rw [dayRecords_eq, dayRecords_eq]
      refine List.map_congr_left ?_
      intro k _
      rw [accFor_perm dayKey k hp]
    rw [hfun]
  | weekly =>
    show (weekKeys (mondayOnOrBefore s.toordinal) e.toordinal).map (weekRecords sales)
      = (weekKeys (mondayOnOrBefore s.toordinal) e.toordinal).map (weekRecords sales2)
    have hfun : weekRecords sales = weekRecords sales2 := by
      funext ks
      rw [weekRecords_eq, weekRecords_eq]
      refine List.map_congr_left ?_
      intro k _
      rw [accFor_perm weekKey k hp]
    rw [hfun]
  | monthly =>
    have h : group_revenue_by_month sales s e = group_revenue_by_month sales2 s e := by
      rw [group_revenue_by_month_eq, group_revenue_by_month_eq]
      refine List.map_congr_left ?_
      intro k _
      rw [accFor_perm monthKey k hp]
    show some (group_revenue_by_month sales s e) = some (group_revenue_by_month sales2 s e)
    rw [h]
  | annual =>
    have h : group_revenue_by_year sales s.year e.year
        = group_revenue_by_year sales2 s.year e.year := by
      rw [group_revenue_by_year_eq, group_revenue_by_year_eq]
      refine List.map_congr_left ?_
      intro k _
      rw [accFor_perm yearKey k hp]
    show some (group_revenue_by_year sales s.year e.year)
      = some (group_revenue_by_year sales2 s.year e.year)
    rw [h]

/-- Witness for C9: swapping two sales leaves the daily output unchanged. -/
theorem C9_order_invariance_witness :
    groupRevenue .daily
        [⟨⟨1, 1, 1⟩, 3, [⟨1⟩]⟩, ⟨⟨1, 1, 2⟩, 5, [⟨2⟩]⟩] ⟨1, 1, 1⟩ ⟨1, 1, 2⟩
      = groupRevenue .daily
        [⟨⟨1, 1, 2⟩, 5, [⟨2⟩]⟩, ⟨⟨1, 1, 1⟩, 3, [⟨1⟩]⟩] ⟨1, 1, 1⟩ ⟨1, 1, 2⟩ :=
  C9_order_invariance .daily ⟨1, 1, 1⟩ ⟨1, 1, 2⟩ _ _
    (List.Perm.swap (⟨⟨1, 1, 2⟩, 5, [⟨2⟩]⟩ : Sale) (⟨⟨1, 1, 1⟩, 3, [⟨1⟩]⟩ : Sale) [])

end RevenueService

namespace RevenueService

/-- The aggregates of one output record over the key-filtered sales
satisfy the per-bucket contract. -/
theorem mkResponse_filter_spec {κ : Type} [DecidableEq κ] (key : Sale → κ) (k : κ)
    (sales : List Sale) (b1 b2 : ℕ) :
    BucketSpec (mkResponse b1 b2 (accFor key k sales))
      (sales.filter fun x => decide (k = key x)) := by
  refine ⟨?_, ?_, ?_, ?_⟩
  · rw [accFor_eq_filter]
    rfl
  · rw [accFor_eq_filter]
    rfl
  · rw [accFor_eq_filter]
    rfl
  · intro h
    have hnil : (sales.filter fun x => decide (k = key x)) = [] := List.length_eq_zero.mp h
    rw [accFor_eq_filter, hnil]
    simp [mkResponse]

/-- The first day of a month determines the (year, month) label. -/
theorem monthStartOrd_inj (p q : ℕ × ℕ) (hp1 : 1 ≤ p.1) (hp2 : 1 ≤ p.2) (hp3 : p.2 ≤ 12)
    (hq1 : 1 ≤ q.1) (hq2 : 1 ≤ q.2) (hq3 : q.2 ≤ 12)
    (h : monthStartOrd p = monthStartOrd q) : p = q := by
  by_contra hne
  have h28p := monthrange_ge_28 p.1 p.2
  have h28q := monthrange_ge_28 q.1 q.2
  have htri : (p.1 < q.1 ∨ (p.1 = q.1 ∧ p.2 < q.2)) ∨ (q.1 < p.1 ∨ (q.1 = p.1 ∧ q.2 < p.2)) := by
    rcases Nat.lt_trichotomy p.1 q.1 with h1 | h1 | h1
    · exact Or.inl (Or.inl h1)
    · rcases Nat.lt_trichotomy p.2 q.2 with h2 | h2 | h2
      · exact Or.inl (Or.inr ⟨h1, h2⟩)
      · exact absurd (Prod.ext h1 h2) hne
      · exact Or.inr (Or.inr ⟨h1.symm, h2⟩)
    · exact Or.inr (Or.inl h1)
  rcases htri with hlt | hlt
  · have hord := toordinal_lt_of_ym_lt ⟨p.1, p.2, 1⟩ ⟨q.1, q.2, 1⟩ hp1 hp2 hp3
      (show (1 : ℕ) ≤ monthrange p.1 p.2 by omega) (le_refl 1) hlt
    unfold monthStartOrd at h
    exact absurd h (by omega)
  · have hord := toordinal_lt_of_ym_lt ⟨q.1, q.2, 1⟩ ⟨p.1, p.2, 1⟩ hq1 hq2 hq3
      (show (1 : ℕ) ≤ monthrange q.1 q.2 by omega) (le_refl 1) hlt
    unfold monthStartOrd at h
    exact absurd h (by omega)

/-- January 1 of a year determines the year label. -/
theorem yearStartOrd_inj (y z : ℕ) (hy : 1 ≤ y) (hz : 1 ≤ z)
    (h : yearStartOrd y = yearStartOrd z) : y = z := by
  by_contra hne
  have h31y := monthrange_1 y
  have h31z := monthrange_1 z
  rcases Nat.lt_trichotomy y z with h1 | h1 | h1
  · have hord := toordinal_lt_of_ym_lt ⟨y, 1, 1⟩ ⟨z, 1, 1⟩ hy (le_refl 1)
      (show (1 : ℕ) ≤ 12 by omega)
      (show (1 : ℕ) ≤ monthrange y 1 by omega) (le_refl 1) (Or.inl h1)
    unfold yearStartOrd at h
    exact absurd h (by omega)
  · exact hne h1
  · have hord := toordinal_lt_of_ym_lt ⟨z, 1, 1⟩ ⟨y, 1, 1⟩ hz (le_refl 1)
      (show (1 : ℕ) ≤ 12 by omega)
      (show (1 : ℕ) ≤ monthrange z 1 by omega) (le_refl 1) (Or.inl h1)
    unfold yearStartOrd at h
    exact absurd h (by omega)

/-- C7 amended: whenever the grouping pipeline returns, every returned
record satisfies the per-bucket contract against exactly the sales the
guarded dict update assigned to its bucket - the sales whose recomputed
key identifies the record's period_start: total_revenue and total_sales sum
their amounts and unit counts, average_order_value is the revenue over the
assigned-transaction count under the positivity guard, and a record whose
bucket received no sale is all zero. -/
theorem C7_bucket_average (g : RevenuePeriodEnum) (sales : List Sale) (s e : Date)
    (hs : s.IsValid) (hsales : ∀ x ∈ sales, x.sale_date.IsValid)
    (out : List RevenueResponse) (hout : groupRevenue g sales s e = some out)
    (r : RevenueResponse) (hr : r ∈ out) :
    BucketSpec r (sales.filter (assignedToRecord g r)) := by
  cases g with
  | daily =>
    rw [show groupRevenue .daily sales s e
        = (dayKeys s.toordinal e.toordinal).map (dayRecords sales) from rfl] at hout
    obtain ⟨ks, hks, hrec⟩ := Option.map_eq_some.mp hout
    rw [← hrec, dayRecords_eq] at hr
    obtain ⟨k, hk, rfl⟩ := List.mem_map.mp hr
    have hfeq : ∀ x ∈ sales,
        assignedToRecord .daily (mkResponse k k (accFor dayKey k sales)) x
          = decide (k = dayKey x) := by
      intro x hx
      show decide (dayKey x = k) = decide (k = dayKey x)
      simp [eq_comm]
    rw [List.filter_congr hfeq]
    exact mkResponse_filter_spec dayKey k sales k k
  | weekly =>
    rw [show groupRevenue .weekly sales s e
        = (weekKeys (mondayOnOrBefore s.toordinal) e.toordinal).map (weekRecords sales)
        from rfl] at hout
    obtain ⟨ks, hks, hrec⟩ := Option.map_eq_some.mp hout
    rw [← hrec, weekRecords_eq] at hr
    obtain ⟨k, hk, rfl⟩ := List.mem_map.mp hr
    have hfeq : ∀ x ∈ sales,
        assignedToRecord .weekly (mkResponse k (k + 6) (accFor weekKey k sales)) x
          = decide (k = weekKey x) := by
      intro x hx
      show decide (weekKey x = k) = decide (k = weekKey x)
      simp [eq_comm]
    rw [List.filter_congr hfeq]
    exact mkResponse_filter_spec weekKey k sales k (k + 6)
  | monthly =>
    rw [show groupRevenue .monthly sales s e
        = some (group_revenue_by_month sales s e) from rfl, Option.some.injEq] at hout
    rw [← hout, group_revenue_by_month_eq] at hr
    obtain ⟨k, hk, rfl⟩ := List.mem_map.mp hr
    obtain ⟨hs1, hs9, hs2, hs3, hs4, hs5⟩ := hs
    have hkmem := mem_monthGo e.year e.month _ s.year s.month k hs2 hs3 hk
    have hk1 : 1 ≤ k.1 := by omega
    have hfeq : ∀ x ∈ sales,
        assignedToRecord .monthly
            (mkResponse (monthStartOrd k) (monthEndOrd k) (accFor monthKey k sales)) x
          = decide (k = monthKey x) := by
      intro x hx
      obtain ⟨hx1, hx9, hx2, hx3, hx4, hx5⟩ := hsales x hx
      show decide (monthStartOrd (monthKey x) = monthStartOrd k) = decide (k = monthKey x)
      rcases Decidable.em (k = monthKey x) with hkx | hkx
      · rw [← hkx]
        simp
      · have hne : monthStartOrd (monthKey x) ≠ monthStartOrd k := by
          intro hcontra
          exact hkx (monthStartOrd_inj k (monthKey x) hk1 hkmem.1 hkmem.2.1
            hx1 hx2 hx3 (hcontra.symm))
        rw [decide_eq_false hne, decide_eq_false hkx]
    rw [List.filter_congr hfeq]
    exact mkResponse_filter_spec monthKey k sales (monthStartOrd k) (monthEndOrd k)
  | annual =>
    rw [show groupRevenue .annual sales s e
        = some (group_revenue_by_year sales s.year e.year) from rfl,
      Option.some.injEq] at hout
    rw [← hout, group_revenue_by_year_eq] at hr
    obtain ⟨k, hk, rfl⟩ := List.mem_map.mp hr
    obtain ⟨hs1, hs9, hs2, hs3, hs4, hs5⟩ := hs
    have hkmem := mem_stepGo 1 e.year _ s.year k hk
    have hk1 : 1 ≤ k := by omega
    have hfeq : ∀ x ∈ sales,
        assignedToRecord .annual
            (mkResponse (yearStartOrd k) (yearEndOrd k) (accFor yearKey k sales)) x
          = decide (k = yearKey x) := by
      intro x hx
      obtain ⟨hx1, hx9, hx2, hx3, hx4, hx5⟩ := hsales x hx
      show decide (yearStartOrd (yearKey x) = yearStartOrd k) = decide (k = yearKey x)
      rcases Decidable.em (k = yearKey x) with hkx | hkx
      · rw [← hkx]
        simp
      · have hne : yearStartOrd (yearKey x) ≠ yearStartOrd k := by
          intro hcontra
          exact hkx ((yearStartOrd_inj k (yearKey x) hk1 hx1 hcontra.symm))
        rw [decide_eq_false hne, decide_eq_false hkx]
    rw [List.filter_congr hfeq]
    exact mkResponse_filter_spec yearKey k sales (yearStartOrd k) (yearEndOrd k)

/-- Witness for C7 on the empty sale collection: the single daily bucket of
0001-01-01 satisfies the contract over an empty assignment. -/
theorem C7_bucket_average_witness :
    BucketSpec (mkResponse 1 1 BucketAcc.init)
      (([] : List Sale).filter (assignedToRecord .daily (mkResponse 1 1 BucketAcc.init))) :=
  C7_bucket_average .daily [] ⟨1, 1, 1⟩ ⟨1, 1, 1⟩ (by decide) (by simp)
    (dayRecords [] (dayKeysFrom 1 1)) rfl (mkResponse 1 1 BucketAcc.init)
    (List.Mem.head _)

end RevenueService

namespace RevenueService

/-- C8 amended: whenever the weekly grouping returns, its buckets are
Monday-aligned, 7 days wide and never clipped to the end of the queried
range; but it raises OverflowError instead of returning exactly when
end_date is on or after Monday 9999-12-27, the last Monday a full week
computation fits under date.max. -/
theorem C8_weekly_alignment (sales : List Sale) (s e : Date) (hs : s.IsValid)
    (hle : s.toordinal ≤ e.toordinal) :
    (∀ out, groupRevenue .weekly sales s e = some out →
        WeeklyShape s.toordinal e.toordinal out)
    ∧ (groupRevenue .weekly sales s e = none ↔ maxOrdinal - 4 ≤ e.toordinal) := by
  have hpos := toordinal_pos s hs
  have hsmax := toordinal_le_max s hs
  have hmod := mondayOnOrBefore_mod s.toordinal hpos
  have hm : mondayOnOrBefore s.toordinal ≤ s.toordinal := Nat.sub_le _ _
  have hm4 := mondayOnOrBefore_le_sub4 s.toordinal hpos hsmax
  constructor
  · intro out hout
    rw [show groupRevenue .weekly sales s e
        = (weekKeys (mondayOnOrBefore s.toordinal) e.toordinal).map (weekRecords sales)
        from rfl] at hout
    obtain ⟨ks, hks, hrec⟩ := Option.map_eq_some.mp hout
    have hksd := weekGo_some_inv e.toordinal _ (mondayOnOrBefore s.toordinal) ks hks
    subst hksd
    rw [← hrec, weekRecords_eq]
    have hfuel : 1 ≤ e.toordinal + 1 - mondayOnOrBefore s.toordinal := by omega
    refine ⟨?_, ?_, ?_, ?_, ?_, ?_, ?_⟩
    · intro hnil
      rcases List.map_eq_nil_iff.mp hnil with h
      have := (stepGo_eq_nil_iff 7 _ _ _ hfuel).mp h
      omega
    · intro r hr
      rw [List.head?_map, stepGo_head 7 _ _ _ (by omega) hfuel] at hr
      simp only [Option.map_some', Option.mem_def, Option.some.injEq] at hr
      subst hr
      rfl
    · unfold weekday
      omega
    · exact Nat.sub_le _ _
    · intro r hr
      obtain ⟨k, hk, rfl⟩ := List.mem_map.mp hr
      have := mem_stepGo 7 e.toordinal _ (mondayOnOrBefore s.toordinal) k hk
      exact ⟨rfl, this.2⟩
    · intro r hr
      obtain ⟨l2, hl, hle2, hlt⟩ :=
        stepGo_getLast 7 (by omega) e.toordinal _ (mondayOnOrBefore s.toordinal)
          (by omega) (le_refl _)
      rw [List.getLast?_map, hl] at hr
      simp only [Option.map_some', Option.mem_def, Option.some.injEq] at hr
      subst hr
      exact hlt
    · refine List.chain'_map_of_chain' _ ?_ (stepGo_chain 7 e.toordinal _ _)
      intro a b hab
      exact hab
  · rw [show groupRevenue .weekly sales s e
        = (weekKeys (mondayOnOrBefore s.toordinal) e.toordinal).map (weekRecords sales)
        from rfl]
    constructor
    · intro hnone
      by_cases hlt : e.toordinal < maxOrdinal - 4
      · rw [weekKeys_eq_some _ _ hmod (Or.inl hlt)] at hnone
        exact Option.noConfusion hnone
      · omega
    · intro hge
      rw [weekKeys_eq_none _ _ hmod (by omega) hge hm4]
      rfl

/-- Witness for C8 with a Wednesday start. -/
theorem C8_weekly_alignment_witness :
    WeeklyShape (Date.toordinal ⟨1, 1, 3⟩) (Date.toordinal ⟨1, 1, 10⟩)
      (weekRecords [] (weekKeysFrom (mondayOnOrBefore (Date.toordinal ⟨1, 1, 3⟩))
        (Date.toordinal ⟨1, 1, 10⟩))) :=
  (C8_weekly_alignment [] ⟨1, 1, 3⟩ ⟨1, 1, 10⟩ (by decide) (by decide)).1
    (weekRecords [] (weekKeysFrom (mondayOnOrBefore (Date.toordinal ⟨1, 1, 3⟩))
      (Date.toordinal ⟨1, 1, 10⟩))) rfl

/-- Counterexample to C8 as stated: with start 9999-12-27 (a Monday) and
end 9999-12-31 the weekly loop computes current_week_start +
timedelta(days=6) past date.max and raises OverflowError instead of
returning Monday-aligned buckets. -/
theorem C8_weekly_alignment_cex :
    Date.IsValid ⟨9999, 12, 27⟩ ∧ Date.IsValid ⟨9999, 12, 31⟩
    ∧ Date.toordinal ⟨9999, 12, 27⟩ ≤ Date.toordinal ⟨9999, 12, 31⟩
    ∧ groupRevenue .weekly [] ⟨9999, 12, 27⟩ ⟨9999, 12, 31⟩ = none := by
  have h27 : Date.toordinal ⟨9999, 12, 27⟩ = 3652055 := by
    rw [toordinal_9999_12]
  have h31 : Date.toordinal ⟨9999, 12, 31⟩ = 3652059 := by
    rw [toordinal_9999_12]
  refine ⟨by decide, by decide, by omega, ?_⟩
  rw [show groupRevenue .weekly [] ⟨9999, 12, 27⟩ ⟨9999, 12, 31⟩
      = (weekKeys (mondayOnOrBefore (Date.toordinal ⟨9999, 12, 27⟩))
          (Date.toordinal ⟨9999, 12, 31⟩)).map (weekRecords []) from rfl]
  rw [h27, h31]
  have hmon : mondayOnOrBefore 3652055 = 3652055 := by
    unfold mondayOnOrBefore weekday
    omega
  rw [hmon,
    weekKeys_eq_none 3652055 3652059 (by decide) (by decide) (by decide) (by decide)]
  rfl

/-- C1 amended: on an inverted range daily grouping returns an empty
record list, and monthly and annual grouping return without error - with a
bucket sequence that is empty if and only if end_date also precedes the
month of start_date or the year of start_date respectively - but weekly
grouping raises OverflowError exactly when end_date is still on or after
both the Monday of start_date's week and Monday 9999-12-27, and otherwise
returns a sequence that is empty if and only if end_date precedes the
Monday of start_date's week; an inverted range whose endpoints share an
aligned week, month or year still produces one bucket. -/
theorem C1_degenerate_range (sales : List Sale) (s e : Date)
    (hs : s.IsValid) (he : e.IsValid) (hgt : e.toordinal < s.toordinal) :
    groupRevenue .daily sales s e = some []
    ∧ (groupRevenue .weekly sales s e = none
        ↔ (mondayOnOrBefore s.toordinal ≤ e.toordinal
            ∧ maxOrdinal - 4 ≤ e.toordinal))
    ∧ (∀ out, groupRevenue .weekly sales s e = some out →
        (out = [] ↔ e.toordinal < mondayOnOrBefore s.toordinal))
    ∧ (groupRevenue .monthly sales s e = some (group_revenue_by_month sales s e)
        ∧ (group_revenue_by_month sales s e = []
            ↔ (e.year < s.year ∨ (e.year = s.year ∧ e.month < s.month))))
    ∧ (groupRevenue .annual sales s e = some (group_revenue_by_year sales s.year e.year)
        ∧ (group_revenue_by_year sales s.year e.year = [] ↔ e.year < s.year))
    ∧ (∀ g : RevenuePeriodEnum,
        get_revenue_by_period g (some s) e sales = groupRevenue g sales s e) := by
  have hpos := toordinal_pos s hs
  have hsmax := toordinal_le_max s hs
  have hmod := mondayOnOrBefore_mod s.toordinal hpos
  have hm4 := mondayOnOrBefore_le_sub4 s.toordinal hpos hsmax
  obtain ⟨hs1, hs9, hs2, hs3, hs4, hs5⟩ := hs
  obtain ⟨he1, he9, he2, he3, he4, he5⟩ := he
  refine ⟨?_, ?_, ?_, ⟨rfl, ?_⟩, ⟨rfl, ?_⟩, fun g => rfl⟩
  · rw [show groupRevenue .daily sales s e
        = (dayKeys s.toordinal e.toordinal).map (dayRecords sales) from rfl]
    have hk : dayKeys s.toordinal e.toordinal = some [] := by
      unfold dayKeys
      rw [show e.toordinal + 1 - s.toordinal = 0 by omega]
      rfl
    rw [hk, Option.map_some', show dayRecords sales [] = [] from by rw [dayRecords_eq]; rfl]
  · rw [show groupRevenue .weekly sales s e
        = (weekKeys (mondayOnOrBefore s.toordinal) e.toordinal).map (weekRecords sales)
        from rfl]
    constructor
    · intro hnone
      by_cases hmo : mondayOnOrBefore s.toordinal ≤ e.toordinal
      · refine ⟨hmo, ?_⟩
        by_cases hlt : e.toordinal < maxOrdinal - 4
        · rw [weekKeys_eq_some _ _ hmod (Or.inl hlt)] at hnone
          exact Option.noConfusion hnone
        · omega
      · rw [weekKeys_eq_some _ _ hmod (Or.inr (by omega))] at hnone
        exact Option.noConfusion hnone
    · rintro ⟨hmo, hge⟩
      rw [weekKeys_eq_none _ _ hmod hmo hge hm4]
      rfl
  · intro out hout
    rw [show groupRevenue .weekly sales s e
        = (weekKeys (mondayOnOrBefore s.toordinal) e.toordinal).map (weekRecords sales)
        from rfl] at hout
    obtain ⟨ks, hks, hrec⟩ := Option.map_eq_some.mp hout
    have hksd := weekGo_some_inv e.toordinal _ (mondayOnOrBefore s.toordinal) ks hks
    subst hksd
    rw [← hrec, weekRecords_eq, List.map_eq_nil_iff]
    by_cases hmo : mondayOnOrBefore s.toordinal ≤ e.toordinal
    · rw [stepGo_eq_nil_iff 7 _ _ _ (by omega)]
    · constructor
      · intro _
        omega
      · intro _
        exact stepGo_eq_nil 7 _ _ _ hmo
  · rw [group_revenue_by_month_eq]
    unfold monthKeysFrom
    rw [List.map_eq_nil_iff]
    by_cases hg : s.year < e.year ∨ (s.year = e.year ∧ s.month ≤ e.month)
    · rw [monthGo_eq_nil_iff _ _ _ _ _ (by omega)]
      constructor
      · intro h
        omega
      · intro h
        omega
    · constructor
      · intro _
        omega
      · intro _
        exact monthGo_eq_nil _ _ _ _ _ hg
  · rw [group_revenue_by_year_eq]
    unfold yearKeys
    rw [List.map_eq_nil_iff]
    by_cases hy : s.year ≤ e.year
    · rw [stepGo_eq_nil_iff 1 _ _ _ (by omega)]
    · constructor
      · intro _
        omega
      · intro _
        exact stepGo_eq_nil 1 _ _ _ hy

/-- Witness for C1 at start Wednesday 0001-01-03, end Tuesday 0001-01-02. -/
theorem C1_degenerate_range_witness :
    groupRevenue .daily [] ⟨1, 1, 3⟩ ⟨1, 1, 2⟩ = some []
    ∧ (groupRevenue .weekly [] ⟨1, 1, 3⟩ ⟨1, 1, 2⟩ = none
        ↔ (mondayOnOrBefore (Date.toordinal ⟨1, 1, 3⟩) ≤ Date.toordinal ⟨1, 1, 2⟩
            ∧ maxOrdinal - 4 ≤ Date.toordinal ⟨1, 1, 2⟩))
    ∧ (∀ out, groupRevenue .weekly [] ⟨1, 1, 3⟩ ⟨1, 1, 2⟩ = some out →
        (out = [] ↔ Date.toordinal ⟨1, 1, 2⟩ < mondayOnOrBefore (Date.toordinal ⟨1, 1, 3⟩)))
    ∧ (groupRevenue .monthly [] ⟨1, 1, 3⟩ ⟨1, 1, 2⟩
          = some (group_revenue_by_month [] ⟨1, 1, 3⟩ ⟨1, 1, 2⟩)
        ∧ (group_revenue_by_month [] ⟨1, 1, 3⟩ ⟨1, 1, 2⟩ = []
            ↔ ((1 : ℕ) < 1 ∨ ((1 : ℕ) = 1 ∧ (1 : ℕ) < 1))))
    ∧ (groupRevenue .annual [] ⟨1, 1, 3⟩ ⟨1, 1, 2⟩
          = some (group_revenue_by_year [] 1 1)
        ∧ (group_revenue_by_year [] 1 1 = [] ↔ (1 : ℕ) < 1))
    ∧ (∀ g : RevenuePeriodEnum,
        get_revenue_by_period g (some ⟨1, 1, 3⟩) ⟨1, 1, 2⟩ []
          = groupRevenue g [] ⟨1, 1, 3⟩ ⟨1, 1, 2⟩) :=
  C1_degenerate_range [] ⟨1, 1, 3⟩ ⟨1, 1, 2⟩ (by decide) (by decide) (by decide)

/-- Counterexample to C1 as stated: start 0001-01-03 is after end
0001-01-02, yet the weekly grouping returns a non-empty record list,
because the Monday of the week of the start date is on or before the end
date. -/
theorem C1_degenerate_range_cex :
    Date.toordinal ⟨1, 1, 2⟩ < Date.toordinal ⟨1, 1, 3⟩
    ∧ groupRevenue .weekly [] ⟨1, 1, 3⟩ ⟨1, 1, 2⟩
        = some (weekRecords [] (weekKeysFrom 1 2))
    ∧ weekRecords [] (weekKeysFrom 1 2) ≠ [] :=
  ⟨by decide, rfl, by decide⟩

end RevenueService

namespace RevenueService

/-! Default start-date resolution (claims C2 and C10). -/

/-- The monthly default start date always resolves: month is replaced by 1
and the day, at most 31, fits January. -/
theorem resolve_monthly_eq (e : Date) (he : e.IsValid) :
    resolve_start_date .monthly e = some ⟨e.year, 1, e.day⟩ := by
  obtain ⟨h1, h9, h2, h3, h4, h5⟩ := he
  have hm13 : e.month < 13 := by omega
  have h31 : e.day ≤ 31 := le_trans h5 (monthrange_le_31 e.year e.month)
  have hmr : monthrange e.year 1 = 31 := monthrange_1 e.year
  show (if 1 ≤ (if e.month < 13 then 1 else 13 - 12)
          ∧ (if e.month < 13 then 1 else 13 - 12) ≤ 12
          ∧ 1 ≤ e.day ∧ e.day ≤ monthrange e.year (if e.month < 13 then 1 else 13 - 12)
        then some (⟨e.year, if e.month < 13 then 1 else 13 - 12, e.day⟩ : Date) else none)
      = some ⟨e.year, 1, e.day⟩
  rw [if_pos hm13]
  rw [if_pos ⟨le_refl 1, by omega, h4, show e.day ≤ monthrange e.year 1 by omega⟩]

/-- C10: with monthly granularity and no explicit start date, the start
resolves to end_date with its month replaced by 1 and the day kept; the
branch computing 13 - 12 is dead because a real month is below 13, and the
replacement is always a valid date. -/
theorem C10_monthly_default (e : Date) (he : e.IsValid) :
    resolve_start_date .monthly e = some ⟨e.year, 1, e.day⟩
    ∧ e.month < 13
    ∧ Date.IsValid ⟨e.year, 1, e.day⟩ := by
  obtain ⟨h1, h9, h2, h3, h4, h5⟩ := he
  refine ⟨resolve_monthly_eq e ⟨h1, h9, h2, h3, h4, h5⟩, by omega, ?_⟩
  have hmr : monthrange e.year 1 = 31 := monthrange_1 e.year
  have h31 : e.day ≤ 31 := le_trans h5 (monthrange_le_31 e.year e.month)
  exact ⟨h1, h9, show (1 : ℕ) ≤ 1 by omega, show (1 : ℕ) ≤ 12 by omega, h4,
    show e.day ≤ monthrange e.year 1 by omega⟩

/-- Witness for C10 at the leap day 2024-02-29. -/
theorem C10_monthly_default_witness :
    resolve_start_date .monthly ⟨2024, 2, 29⟩ = some ⟨2024, 1, 29⟩
    ∧ (2 : ℕ) < 13
    ∧ Date.IsValid ⟨2024, 1, 29⟩ :=
  C10_monthly_default ⟨2024, 2, 29⟩ (by decide)

end RevenueService

namespace RevenueService

/-- C5: whenever both grouping runs return, compare_revenue returns the
comparison record of the two datasets: revenue_change is the difference of
the period revenue totals, revenue_change_percentage is revenue_change /
total_revenue(period1) * 100 under the positivity guard and 0 otherwise
(in particular when the baseline is 0), and the sales fields are computed
and guarded the same way over the summed unit counts; every branch returns
a value, so no division fault can arise. -/
theorem C5_percentage_guard (g : RevenuePeriodEnum) (p1s p1e p2s p2e : Date)
    (sales1 sales2 : List Sale) (d1 d2 : List RevenueResponse)
    (h1 : groupRevenue g sales1 p1s p1e = some d1)
    (h2 : groupRevenue g sales2 p2s p2e = some d2) :
    compare_revenue g p1s p1e p2s p2e sales1 sales2 = some (compare_core d1 d2)
    ∧ (compare_core d1 d2).revenue_change = sumRev d2 - sumRev d1
    ∧ (compare_core d1 d2).revenue_change_percentage
        = (if 0 < sumRev d1 then (sumRev d2 - sumRev d1) / sumRev d1 * 100 else 0)
    ∧ (compare_core d1 d2).sales_change = (sumSales d2 : ℤ) - (sumSales d1 : ℤ)
    ∧ (compare_core d1 d2).sales_change_percentage
        = (if 0 < sumSales d1
           then ((((sumSales d2 : ℤ) - (sumSales d1 : ℤ) : ℤ)) : ℚ)
                / (sumSales d1 : ℚ) * 100
           else 0) := by
  refine ⟨?_, rfl, rfl, rfl, rfl⟩
  unfold compare_revenue
  rw [h1, h2]
  rfl

/-- Witness for C5 on two empty daily runs over 0001-01-01. -/
theorem C5_percentage_guard_witness :
    compare_revenue .daily ⟨1, 1, 1⟩ ⟨1, 1, 1⟩ ⟨1, 1, 1⟩ ⟨1, 1, 1⟩ [] []
        = some (compare_core (dayRecords [] [1]) (dayRecords [] [1]))
    ∧ (compare_core (dayRecords [] [1]) (dayRecords [] [1])).revenue_change
        = sumRev (dayRecords [] [1]) - sumRev (dayRecords [] [1])
    ∧ (compare_core (dayRecords [] [1]) (dayRecords [] [1])).revenue_change_percentage
        = (if 0 < sumRev (dayRecords [] [1])
           then (sumRev (dayRecords [] [1]) - sumRev (dayRecords [] [1]))
                / sumRev (dayRecords [] [1]) * 100
           else 0)
    ∧ (compare_core (dayRecords [] [1]) (dayRecords [] [1])).sales_change
        = (sumSales (dayRecords [] [1]) : ℤ) - (sumSales (dayRecords [] [1]) : ℤ)
    ∧ (compare_core (dayRecords [] [1]) (dayRecords [] [1])).sales_change_percentage
        = (if 0 < sumSales (dayRecords [] [1])
           then ((((sumSales (dayRecords [] [1]) : ℤ)
                    - (sumSales (dayRecords [] [1]) : ℤ) : ℤ)) : ℚ)
                / (sumSales (dayRecords [] [1]) : ℚ) * 100
           else 0) :=
  C5_percentage_guard .daily ⟨1, 1, 1⟩ ⟨1, 1, 1⟩ ⟨1, 1, 1⟩ ⟨1, 1, 1⟩ [] []
    (dayRecords [] [1]) (dayRecords [] [1]) rfl rfl

/-- C6 amended: whenever both grouping runs return, each period-wide
average_order_value reported by compare_revenue is the period revenue
total divided by the period total_sales - the summed UNIT count of the
assigned sales, not their transaction count - and 0 when that unit count
is 0. -/
theorem C6_compare_average (g : RevenuePeriodEnum) (p1s p1e p2s p2e : Date)
    (sales1 sales2 : List Sale) (d1 d2 : List RevenueResponse)
    (h1 : groupRevenue g sales1 p1s p1e = some d1)
    (h2 : groupRevenue g sales2 p2s p2e = some d2) :
    compare_revenue g p1s p1e p2s p2e sales1 sales2 = some (compare_core d1 d2)
    ∧ (compare_core d1 d2).period1.average_order_value
        = (if 0 < sumSales d1 then sumRev d1 / (sumSales d1 : ℚ) else 0)
    ∧ (compare_core d1 d2).period2.average_order_value
        = (if 0 < sumSales d2 then sumRev d2 / (sumSales d2 : ℚ) else 0)
    ∧ sumSales d1 = ((sales1.filter (keyInBuckets g p1s p1e)).map Sale.units).sum := by
  refine ⟨?_, rfl, rfl, ?_⟩
  · unfold compare_revenue
    rw [h1, h2]
    rfl
  · cases g with
    | daily =>
      rw [show groupRevenue .daily sales1 p1s p1e
          = (dayKeys p1s.toordinal p1e.toordinal).map (dayRecords sales1) from rfl] at h1
      obtain ⟨ks, hks, hrec⟩ := Option.map_eq_some.mp h1
      have hksd := dayGo_some_inv p1e.toordinal _ p1s.toordinal ks hks
      subst hksd
      rw [← hrec, dayRecords_eq]
      exact sumSales_keys dayKey (dayKeysFrom p1s.toordinal p1e.toordinal)
        (stepGo_nodup 1 (by omega) p1e.toordinal _ p1s.toordinal)
        (keyInBuckets .daily p1s p1e) (fun x => by simp [keyInBuckets])
        (fun k => k) (fun k => k) sales1
    | weekly =>
      rw [show groupRevenue .weekly sales1 p1s p1e
          = (weekKeys (mondayOnOrBefore p1s.toordinal) p1e.toordinal).map (weekRecords sales1)
          from rfl] at h1
      obtain ⟨ks, hks, hrec⟩ := Option.map_eq_some.mp h1
      have hksd := weekGo_some_inv p1e.toordinal _ (mondayOnOrBefore p1s.toordinal) ks hks
      subst hksd
      rw [← hrec, weekRecords_eq]
      exact sumSales_keys weekKey (weekKeysFrom (mondayOnOrBefore p1s.toordinal) p1e.toordinal)
        (stepGo_nodup 7 (by omega) p1e.toordinal _ (mondayOnOrBefore p1s.toordinal))
        (keyInBuckets .weekly p1s p1e) (fun x => by simp [keyInBuckets])
        (fun k => k) (fun k => k + 6) sales1
    | monthly =>
      rw [show groupRevenue .monthly sales1 p1s p1e
          = some (group_revenue_by_month sales1 p1s p1e) from rfl, Option.some.injEq] at h1
      rw [← h1, group_revenue_by_month_eq]
      exact sumSales_keys monthKey (monthKeysFrom p1s.year p1s.month p1e.year p1e.month)
        (monthGo_nodup_all p1e.year p1e.month _ p1s.year p1s.month)
        (keyInBuckets .monthly p1s p1e) (fun x => by simp [keyInBuckets])
        monthStartOrd monthEndOrd sales1
    | annual =>
      rw [show groupRevenue .annual sales1 p1s p1e
          = some (group_revenue_by_year sales1 p1s.year p1e.year) from rfl,
        Option.some.injEq] at h1
      rw [← h1, group_revenue_by_year_eq]
      exact sumSales_keys yearKey (yearKeys p1s.year p1e.year)
        (stepGo_nodup 1 (by omega) p1e.year _ p1s.year)
        (keyInBuckets .annual p1s p1e) (fun x => by simp [keyInBuckets])
        yearStartOrd yearEndOrd sales1

/-- Witness for C6 on two empty daily runs over 0001-01-02. -/
theorem C6_compare_average_witness :
    compare_revenue .daily ⟨1, 1, 2⟩ ⟨1, 1, 2⟩ ⟨1, 1, 2⟩ ⟨1, 1, 2⟩ [] []
        = some (compare_core (dayRecords [] [2]) (dayRecords [] [2]))
    ∧ (compare_core (dayRecords [] [2]) (dayRecords [] [2])).period1.average_order_value
        = (if 0 < sumSales (dayRecords [] [2])
           then sumRev (dayRecords [] [2]) / (sumSales (dayRecords [] [2]) : ℚ)
           else 0)
    ∧ (compare_core (dayRecords [] [2]) (dayRecords [] [2])).period2.average_order_value
        = (if 0 < sumSales (dayRecords [] [2])
           then sumRev (dayRecords [] [2]) / (sumSales (dayRecords [] [2]) : ℚ)
           else 0)
    ∧ sumSales (dayRecords [] [2])
        = ((([] : List Sale).filter (keyInBuckets .daily ⟨1, 1, 2⟩ ⟨1, 1, 2⟩)).map
            Sale.units).sum :=
  C6_compare_average .daily ⟨1, 1, 2⟩ ⟨1, 1, 2⟩ ⟨1, 1, 2⟩ ⟨1, 1, 2⟩ [] []
    (dayRecords [] [2]) (dayRecords [] [2]) rfl rfl

/-- Counterexample to C6 as stated: one sale of amount 100 with a single
line of quantity 2.  The period has total revenue 100 and one assigned
transaction, so revenue divided by transaction count is 100, but the
engine reports average_order_value 50 = 100 / 2, dividing by the unit
count instead. -/
theorem C6_compare_average_cex :
    compare_revenue .daily ⟨1, 1, 1⟩ ⟨1, 1, 1⟩ ⟨1, 1, 1⟩ ⟨1, 1, 1⟩
        [⟨⟨1, 1, 1⟩, 100, [⟨2⟩]⟩] []
      = some (compare_core (dayRecords [⟨⟨1, 1, 1⟩, 100, [⟨2⟩]⟩] [1]) (dayRecords [] [1]))
    ∧ (compare_core (dayRecords [⟨⟨1, 1, 1⟩, 100, [⟨2⟩]⟩] [1])
        (dayRecords [] [1])).period1.average_order_value = 50
    ∧ (compare_core (dayRecords [⟨⟨1, 1, 1⟩, 100, [⟨2⟩]⟩] [1])
        (dayRecords [] [1])).period1.total_revenue = 100
    ∧ (accFor dayKey (Date.toordinal ⟨1, 1, 1⟩) [⟨⟨1, 1, 1⟩, 100, [⟨2⟩]⟩]).order_count = 1
    ∧ (50 : ℚ) ≠ 100 / (1 : ℚ) := by
  refine ⟨rfl, ?_, ?_, rfl, ?_⟩
  · norm_num [compare_core, dayRecords, foldSales, foldStep, mkResponse, sumRev, sumSales,
      mkPeriodData, BucketAcc.add, BucketAcc.init, dayKey, Date.toordinal, daysBeforeYear,
      daysBeforeMonth, Sale.units]
  · norm_num [compare_core, dayRecords, foldSales, foldStep, mkResponse, sumRev, sumSales,
      mkPeriodData, BucketAcc.add, BucketAcc.init, dayKey, Date.toordinal, daysBeforeYear,
      daysBeforeMonth, Sale.units]
  · norm_num

end RevenueService
